import Mathlib

/-! # Multithreading learning notes, part 3: a verification development

Four independent demonstration programs are embedded here, each in a namespace
of its own because they reuse the names `main`, `task` and `produce`:

* `AsyncDemo`          : `src/std::async()/main.cpp`
* `LaunchOptions`      : `src/std::async() and Launch Options/main.cpp`
* `AsyncProgramming`   : `src/Asynchronous_programming/main.cpp`
* `AtomicOperations`   : `src/Atomic_operations/main.cpp`

The C++ standard library objects the programs use (`std::future`,
`std::promise`, `std::packaged_task`, `std::atomic_flag`) are embedded as
explicit state with the behaviour the C++ standard gives them.  Threads are
embedded as step functions on a state; an interleaving is a list of thread
names, and a scheduled thread that cannot move (it is blocked or has finished)
leaves the state unchanged.
-/

/-! ## Machine integers -/

/-- Two's complement reading of an integer as a 32-bit `int`. -/
def wrapInt (x : Int) : Int := (x + 2147483648) % 4294967296 - 2147483648

/-- The values of type `int`. -/
def inInt (x : Int) : Prop := -2147483648 ≤ x ∧ x ≤ 2147483647

instance (x : Int) : Decidable (inInt x) := by unfold inInt; infer_instance

/-! ## Exceptions and futures shared by the demos -/

/-- The exceptions that occur in the programs: `std::out_of_range` thrown by
`produce`, and the `std::future_error` values the library raises. -/
inductive Exn where
  | out_of_range (msg : String)
  | no_state
  | promise_already_satisfied
  | future_already_retrieved
  deriving DecidableEq, Repr

/-- The text returned by `e.what()`.  For the library errors the texts are the
ones of libstdc++. -/
def Exn.what : Exn → String
  | .out_of_range msg => msg
  | .no_state => "std::future_error: No associated state"
  | .promise_already_satisfied => "std::future_error: Promise already satisfied"
  | .future_already_retrieved => "std::future_error: Future already retrieved"

/-- The two ways a task started by `std::async` can be run: `async` (a new
thread, "Immediate") and `deferred` (lazily, in the thread that calls `get`). -/
inductive Launch where
  | async
  | deferred
  deriving DecidableEq, Repr

/-- The launch flag given to `std::async`: `std::launch::async`,
`std::launch::deferred`, or both (the default, the implementation chooses). -/
inductive Policy where
  | async
  | deferred
  | default
  deriving DecidableEq, Repr

/-- The strategy a task runs with: the flag when it names one, the choice `rt`
of the runtime for the default policy. -/
def Policy.resolve (p : Policy) (rt : Launch) : Launch :=
  match p with
  | .async => .async
  | .deferred => .deferred
  | .default => rt

/-- Values of `std::future_status`. -/
inductive FutureStatus where
  | ready
  | timeout
  | deferred
  deriving DecidableEq, Repr

namespace AsyncDemo

/-- What running a task function gives: the lines it wrote to `std::cout` and
the value it returned or the exception it threw. -/
abbrev Outcome (α : Type) := List String × Except Exn α

/-- The shared state a future refers to.
* `deferredFn f`: a deferred function that has not been run;
* `running left f`: the task runs in a thread of its own and finishes after
  `left` more seconds;
* `ready r`: the result is stored. -/
inductive Shared (α : Type) where
  | deferredFn (f : Unit → Outcome α)
  | running (left : Nat) (f : Unit → Outcome α)
  | ready (r : Outcome α)

/-- A `std::future`: `none` is a future without shared state
(`valid() == false`). -/
abbrev Future (α : Type) := Option (Shared α)

/-- The call `std::async(policy, f)`.  `rt` is the strategy the runtime picks
under the default policy and `dur` the number of seconds the task needs when
it runs in a thread of its own. -/
def async {α : Type} (p : Policy) (rt : Launch) (dur : Nat) (f : Unit → Outcome α) :
    Future α :=
  match p.resolve rt with
  | .async => some (.running dur f)
  | .deferred => some (.deferredFn f)

/-- The call `fut.wait_for(1s)`: the status and the future afterwards.  A
deferred function is reported as `deferred` at once and is not run.  (The
program never calls `wait_for` on a future without shared state.) -/
def wait_for {α : Type} : Future α → FutureStatus × Future α
  | some (.deferredFn f) => (.deferred, some (.deferredFn f))
  | some (.running 0 f) => (.ready, some (.ready (f ())))
  | some (.running (left + 1) f) => (.timeout, some (.running left f))
  | some (.ready r) => (.ready, some (.ready r))
  | none => (.timeout, none)

/-- The call `fut.get()`: the lines the task wrote, the value or exception
delivered, and the future afterwards.  A deferred function is run by the call;
a task running in a thread of its own is waited for, and the lines it wrote
are placed where its result is read.  `get` releases the shared state; on a
future without shared state it throws `future_error(no_state)`, as the C++
standard recommends (the call is formally undefined). -/
def get {α : Type} : Future α → Outcome α × Future α
  | some (.deferredFn f) => (f (), none)
  | some (.running _ f) => (f (), none)
  | some (.ready r) => (r, none)
  | none => (([], .error .no_state), none)

/-- The function `fibonacci` (`unsigned long long`, arithmetic modulo 2^64). -/
def fibonacci (n : Nat) : Nat :=
  if n ≤ 1 then 1
  else (fibonacci (n - 1) + fibonacci (n - 2)) % 18446744073709551616
termination_by n
decreasing_by all_goals omega

/-- Two consecutive values of `fibonacci`, computed by iteration. -/
def fibPair : Nat → Nat × Nat
  | 0 => (1, 1)
  | n + 1 => ((fibPair n).2, ((fibPair n).2 + (fibPair n).1) % 18446744073709551616)

/-- The function `produce` of the `std::async()` demo. -/
def produce : Unit → Outcome Int := fun _ =>
  let x : Int := 42
  -- std::this_thread::sleep_for(2s)
  if (1 : Int) ≠ 0 then
    ([], .error (.out_of_range "Oops"))
  else
    (["Produce returning " ++ toString x], .ok x)

/-- The loop `while (result.wait_for(1s) != std::future_status::ready)` with
its body.  `none`: the loop has not ended within `fuel` iterations. -/
def pollLoop {α : Type} : Nat → Future α → List String → Option (Future α × List String)
  | 0, _, _ => none
  | fuel + 1, fut, out =>
    match wait_for fut with
    | (.ready, fut') => some (fut', out)
    | (_, fut') => pollLoop fuel fut' (out ++ ["Waiting for the result....."])

/-- What is observed of a run of `main`. -/
structure MainRun where
  /-- The lines written to `std::cout`. -/
  out : List String
  /-- What `result.get()` of line 155 delivered. -/
  firstRead : Except Exn Nat
  /-- What the `get()` inside the `try` block (line 164) delivered, when
  `main` got there. -/
  tryRead : Option (Except Exn Nat)
  /-- The exception the handler of line 169 received, if it ran. -/
  caught : Option Exn
  /-- The future `result1` as `main` leaves it: `main` never reads it. -/
  result1 : Future Int

/-- The function `main` of the `std::async()` demo.  `rt` and `rt1` are the
runtime's choices for the two default-policy tasks, `dur` and `dur1` the
seconds the tasks need in a thread of their own, and `fuel` bounds the
iterations of the polling loop (`none`: the loop has not ended). -/
def main (rt rt1 : Launch) (dur dur1 fuel : Nat) : Option MainRun :=
  let out := ["Calling fibonacci(44)"]
  let result : Future Nat := async .default rt dur (fun _ => ([], .ok (fibonacci 44)))
  match pollLoop fuel result out with
  | none => none
  | some (result, out) =>
    let (r, result) := get result
    match r.2 with
    | .error e =>
      -- an exception leaving main ends the program
      some ⟨out ++ r.1, .error e, none, none, none⟩
    | .ok v =>
      let out := out ++ r.1 ++ [toString v]
      let result1 : Future Int := async .default rt1 dur1 produce
      let out := out ++ ["Future calling get()..."]
      let (r2, _) := get result
      match r2.2 with
      | .ok x =>
        let out := out ++ r2.1 ++ ["Future returns from calling get()",
          "The answer is " ++ toString (wrapInt x)]
        some ⟨out, .ok v, some (.ok x), none, result1⟩
      | .error e =>
        let out := out ++ r2.1 ++ ["Exception caught: " ++ e.what]
        some ⟨out, .ok v, some (.error e), some e, result1⟩

end AsyncDemo

/-! ## Output -/

/-- One insertion into `std::cout`: a text, an `int`, the identifier of a
thread (threads are numbered, the main thread is 0), or `std::endl`. -/
inductive Item where
  | str (s : String)
  | int (v : Int)
  | tid (t : Nat)
  | endl
  deriving DecidableEq, Repr

/-- How a piece of sequential code ends: it completes with a result, an
exception leaves it, or it blocks for ever. -/
inductive Run (α : Type) where
  | done (x : α)
  | raised (e : Exn)
  | blocked

namespace AsyncProgramming

/-- The shared state of a `std::promise<int>` and its future. -/
structure Promise where
  /-- The stored value, once the promise is satisfied. -/
  value : Option Int
  /-- Whether `get_future` has been called. -/
  retrieved : Bool
  deriving DecidableEq, Repr

/-- A newly constructed promise. -/
def Promise.fresh : Promise := ⟨none, false⟩

/-- The call `prom.get_future()`. -/
def Promise.get_future (p : Promise) : Except Exn Promise :=
  if p.retrieved then .error .future_already_retrieved
  else .ok { p with retrieved := true }

/-- The call `prom.set_value(v)`: a promise is satisfied at most once. -/
def Promise.set_value (p : Promise) (v : Int) : Except Exn Promise :=
  if p.value.isSome then .error .promise_already_satisfied
  else .ok { p with value := some v }

/-- The call `fut.get()` on a future that is `valid` or not and refers to the
shared state `p`.  `none`: the caller is blocked, the state is not ready. -/
def futureGet (valid : Bool) (p : Promise) : Option (Except Exn Int) :=
  if valid then
    match p.value with
    | none => none
    | some v => some (.ok v)
  else some (.error .no_state)

/-- A `std::packaged_task<int(int, int)>`: the callable and the promise for
its result. -/
structure PackagedTask where
  fn : Int → Int → Int
  promise : Promise

/-- The call `ptask(a, b)`: invokes the callable and stores the value it
returns in the promise. -/
def PackagedTask.call (t : PackagedTask) (a b : Int) : Except Exn PackagedTask :=
  match t.promise.set_value (t.fn a b) with
  | .error e => .error e
  | .ok p => .ok { t with promise := p }

/-- The lambda given to `ptask` in `main`. -/
def ptaskFn : Int → Int → Int := fun a b =>
  -- std::this_thread::sleep_for(2s)
  wrapInt (a + b)

/-- Lines 268 to 292 of `main`, with the arguments of the call `ptask(6, 7)`
as parameters: the items written and the value `fut.get()` returned. -/
def mainPackaged (a b : Int) : Run (List Item × Int) :=
  let out := [Item.str "Hello, World!", .endl]
  let ptask : PackagedTask := ⟨ptaskFn, Promise.fresh⟩
  match ptask.promise.get_future with
  | .error e => .raised e
  | .ok p =>
    let ptask : PackagedTask := { ptask with promise := p }
    match ptask.call a b with
    | .error e => .raised e
    | .ok ptask =>
      let out := out ++ [.str "Waiting for result", .endl]
      let out := out ++ [.str "6 + 7 is "]
      match futureGet true ptask.promise with
      | none => .blocked
      | some (.error e) => .raised e
      | some (.ok v) => .done (out ++ [.int v, .endl], v)

/-- The body of the loop of lines 304 to 317 for one value of `i`. -/
def fizzBuzzBody (i : Int) : List Item :=
  if Int.tmod i 3 = 0 ∧ Int.tmod i 5 = 0 then [.str "FizzBuzz", .endl]
  else if Int.tmod i 3 = 0 then [.str "Fizz", .endl]
  else if Int.tmod i 5 = 0 then [.str "Buzz", .endl]
  else [.int i, .endl]

/-- The loop `for (int i = 0; i <= 30; ++i)` from the value `i` on; `fuel`
bounds the number of iterations. -/
def fizzBuzzLoop : Nat → Int → List Item
  | 0, _ => []
  | fuel + 1, i => if i ≤ 30 then fizzBuzzBody i ++ fizzBuzzLoop fuel (i + 1) else []

/-- What the main thread writes in lines 303 to 317. -/
def mainItems : List Item :=
  [.str "Main does not stop running", .endl] ++ fizzBuzzLoop 32 0

/-- The threads of lines 295 to 323 of `main`. -/
inductive Tid where
  | main
  | producer
  | consumer
  deriving DecidableEq, Repr

/-- The state of lines 295 to 323 of `main`. -/
structure State where
  /-- The shared state of `promise` and `future`. -/
  promise : Promise
  /-- Whether `future` still refers to the shared state. -/
  futValid : Bool
  /-- The main thread: 0 before line 299, 1 before line 300, `2 + k` when it
  has written `k` items, then the two joins. -/
  mpc : Nat
  /-- The thread running `produce`: 0 at line 257, 1 at line 258, 2 finished. -/
  ppc : Nat
  /-- The thread running `consume`: 0 at line 262, 1 at line 263, 2 to 4
  writing line 264, 5 finished. -/
  cpc : Nat
  /-- The local variable `result` of `produce`. -/
  presult : Int
  /-- The local variable `result` of `consume`. -/
  cresult : Int
  /-- An exception that has left a thread function (the program is ended). -/
  raised : Option Exn
  /-- The items written so far, each with the thread that wrote it. -/
  out : List (Tid × Item)

/-- The state after line 296. -/
def init : State :=
  { promise := ⟨none, true⟩, futValid := true, mpc := 0, ppc := 0, cpc := 0,
    presult := 0, cresult := 0, raised := none, out := [] }

/-- One step of the thread running `produce(promise, a, b)`. -/
def produce (a b : Int) (s : State) : Option State :=
  if s.mpc = 0 then none
  else match s.ppc with
    | 0 => some { s with presult := wrapInt (a + b), ppc := 1 }
    | 1 =>
      match s.promise.set_value s.presult with
      | .ok p => some { s with promise := p, ppc := 2 }
      | .error e => some { s with raised := some e, ppc := 2 }
    | _ => none

/-- One step of the thread running `consume(future)`. -/
def consume (s : State) : Option State :=
  if s.mpc ≤ 1 then none
  else match s.cpc with
    | 0 =>
      match futureGet s.futValid s.promise with
      | none => none
      | some (.ok v) => some { s with cresult := v, futValid := false, cpc := 1 }
      | some (.error e) => some { s with raised := some e, cpc := 5 }
    | 1 => some { s with cpc := 2 }
    | 2 => some { s with out := s.out ++ [(.consumer, .str "The final result is: ")], cpc := 3 }
    | 3 => some { s with out := s.out ++ [(.consumer, .int s.cresult)], cpc := 4 }
    | 4 => some { s with out := s.out ++ [(.consumer, .endl)], cpc := 5 }
    | _ => none

/-- One step of the main thread in lines 299 to 323. -/
def mainStep (s : State) : Option State :=
  if s.mpc < 2 then some { s with mpc := s.mpc + 1 }
  else match mainItems[s.mpc - 2]? with
    | some i => some { s with out := s.out ++ [(.main, i)], mpc := s.mpc + 1 }
    | none =>
      if s.mpc = mainItems.length + 2 then
        if s.ppc = 2 then some { s with mpc := s.mpc + 1 } else none
      else if s.mpc = mainItems.length + 3 then
        if s.cpc = 5 then some { s with mpc := s.mpc + 1 } else none
      else none

/-- One step of thread `t` with `produce` called on `(a, b)`; `none` when the
thread is blocked, not started or finished, or the program has ended. -/
def step (a b : Int) (t : Tid) (s : State) : Option State :=
  if s.raised.isSome then none
  else match t with
    | .main => mainStep s
    | .producer => produce a b s
    | .consumer => consume s

/-- The state reached from `s` when the threads named in the interleaving take
one step each in turn; a thread that cannot move leaves the state unchanged. -/
def run (a b : Int) : List Tid → State → State
  | [], s => s
  | t :: ts, s =>
    match step a b t s with
    | some s' => run a b ts s'
    | none => run a b ts s

/-- The items thread `t` has written. -/
def written (t : Tid) (s : State) : List Item :=
  (s.out.filter (fun x => x.1 = t)).map (fun x => x.2)

/-- The number of steps the threads have left at most. -/
def stepsLeft (s : State) : Nat :=
  (mainItems.length + 4 - s.mpc) + (2 - s.ppc) + (5 - s.cpc)

end AsyncProgramming

namespace AsyncProgramming

/-- What holds in every state the producer/consumer program reaches. -/
structure Inv (a b : Int) (s : State) : Prop where
  raised : s.raised = none
  mpc_le : s.mpc ≤ mainItems.length + 4
  ppc_le : s.ppc ≤ 2
  cpc_le : s.cpc ≤ 5
  p_start : s.mpc = 0 → s.ppc = 0
  c_start : s.mpc ≤ 1 → s.cpc = 0
  presult : 1 ≤ s.ppc → s.presult = wrapInt (a + b)
  unset : s.ppc < 2 → s.promise.value = none
  set : s.ppc = 2 → s.promise.value = some (wrapInt (a + b))
  valid : s.cpc = 0 → s.futValid = true
  got : 1 ≤ s.cpc → s.ppc = 2 ∧ s.cresult = wrapInt (a + b)
  cout : written .consumer s = List.take (s.cpc - 2)
    [.str "The final result is: ", .int (wrapInt (a + b)), .endl]
  joined_p : mainItems.length + 2 < s.mpc → s.ppc = 2
  joined_c : mainItems.length + 3 < s.mpc → s.cpc = 5

end AsyncProgramming

namespace LaunchOptions

/-- The threads of a call of `func`: the calling thread and the thread that
`std::async` starts for the task under the `async` strategy. -/
inductive Tid where
  | main
  | worker
  deriving DecidableEq, Repr

/-- The number written for the identifier of a thread. -/
def Tid.num : Tid → Nat
  | .main => 0
  | .worker => 1

/-- The function `task`, run by thread `t`: the items it writes, in order, and
the value it returns. -/
def task (t : Tid) : List Item × Int :=
  ([.str "Executing task() in thread with ID: ", .tid t.num, .endl,
    -- std::this_thread::sleep_for(5s)
    .str "Returning from task()", .endl],
   42)

/-- The shared state the future `result` refers to: none, a deferred function
not yet run, a task running in its own thread, or a stored value. -/
inductive Cell where
  | noState
  | deferredFn
  | pending
  | ready (v : Int)
  deriving DecidableEq, Repr

/-- The state of a call of `func`. -/
structure State where
  /-- The number of steps the calling thread has taken in `func`. -/
  mpc : Nat
  /-- The number of steps the worker thread has taken in `task`. -/
  wpc : Nat
  /-- Whether the worker thread has been started. -/
  started : Bool
  /-- The shared state of `result`. -/
  cell : Cell
  /-- The value `result.get()` returned. -/
  read : Option Int
  /-- How many times `task` has been entered. -/
  runs : Nat
  /-- An exception that has left `func`. -/
  raised : Option Exn
  /-- The items written so far, each with the thread that wrote it. -/
  out : List (Tid × Item)
  deriving DecidableEq, Repr

/-- The state in which `func` is entered. -/
def init : State :=
  { mpc := 0, wpc := 0, started := false, cell := .noState, read := none, runs := 0,
    raised := none, out := [] }

/-- The launch flag `func` passes to `std::async` for an option string. -/
def policyOf (option : String) : Policy :=
  if option = "async" then .async
  else if option = "deferred" then .deferred
  else .default

/-- The call `result.get()` made by the calling thread: a deferred function
is run now, in the calling thread; a task still running blocks the caller. -/
def getStep (s : State) : Option State :=
  match s.cell with
  | .deferredFn =>
    some { s with out := s.out ++ (task .main).1.map (fun i => (Tid.main, i)),
                  read := some (task .main).2, runs := s.runs + 1, cell := .noState,
                  mpc := s.mpc + 1 }
  | .ready v => some { s with read := some v, cell := .noState, mpc := s.mpc + 1 }
  | .pending => none
  | .noState => some { s with raised := some .no_state, mpc := s.mpc + 1 }

/-- One step of the calling thread in `func(option)`.  `rt` is the strategy
the runtime picks under the default policy.  In the last statement,
`std::cout << "Task result: " << result.get() << std::endl`, the text is
written before `get()` is called when `leftFirst` holds (the order C++17
fixes) and after it otherwise (an order earlier standards allow). -/
def func (leftFirst : Bool) (option : String) (rt : Launch) (s : State) : Option State :=
  match s.mpc with
  | 0 =>
    match (policyOf option).resolve rt with
    | .async => some { s with cell := .pending, started := true, mpc := 1 }
    | .deferred => some { s with cell := .deferredFn, mpc := 1 }
  | 1 => some { s with out := s.out ++ [(.main, .str "Calling async with option \"")], mpc := 2 }
  | 2 => some { s with out := s.out ++ [(.main, .str option)], mpc := 3 }
  | 3 => some { s with out := s.out ++ [(.main, .str "\"")], mpc := 4 }
  | 4 => some { s with out := s.out ++ [(.main, .endl)], mpc := 5 }
  | 5 => some { s with mpc := 6 }
  | 6 => some { s with out := s.out ++ [(.main, .str "Calling get()")], mpc := 7 }
  | 7 => some { s with out := s.out ++ [(.main, .endl)], mpc := 8 }
  | 8 =>
    if leftFirst then
      some { s with out := s.out ++ [(.main, .str "Task result: ")], mpc := 9 }
    else getStep s
  | 9 =>
    if leftFirst then getStep s
    else some { s with out := s.out ++ [(.main, .str "Task result: ")], mpc := 10 }
  | 10 =>
    match s.read with
    | some v => some { s with out := s.out ++ [(.main, .int v)], mpc := 11 }
    | none => none
  | 11 => some { s with out := s.out ++ [(.main, .endl)], mpc := 12 }
  | _ => none

/-- One step of the worker thread: it runs `task` and stores the value
returned in the shared state. -/
def worker (s : State) : Option State :=
  if s.started then
    match (task .worker).1[s.wpc]? with
    | some i =>
      some { s with out := s.out ++ [(.worker, i)], wpc := s.wpc + 1,
                    runs := if s.wpc = 0 then s.runs + 1 else s.runs }
    | none =>
      if s.wpc = (task .worker).1.length then
        some { s with cell := .ready (task .worker).2, wpc := s.wpc + 1 }
      else none
  else none

/-- One step of thread `t`; `none` when the thread is blocked, not started or
finished, or an exception has ended the call. -/
def step (leftFirst : Bool) (option : String) (rt : Launch) (t : Tid) (s : State) :
    Option State :=
  if s.raised.isSome then none
  else match t with
    | .main => func leftFirst option rt s
    | .worker => worker s

/-- The state reached from `s` when the threads named in the interleaving take
one step each in turn; a thread that cannot move leaves the state unchanged. -/
def run (leftFirst : Bool) (option : String) (rt : Launch) : List Tid → State → State
  | [], s => s
  | t :: ts, s =>
    match step leftFirst option rt t s with
    | some s' => run leftFirst option rt ts s'
    | none => run leftFirst option rt ts s

/-- The number of steps after which the calling thread calls `get()`. -/
def getAt (leftFirst : Bool) : Nat := if leftFirst then 9 else 8

/-- The number of steps the two threads have left at most. -/
def stepsLeft (s : State) : Nat := (12 - s.mpc) + (6 - s.wpc)

/-- Everything a call `func("deferred")` writes, in order. -/
def deferredTrace (leftFirst : Bool) : List (Tid × Item) :=
  [(.main, .str "Calling async with option \""), (.main, .str "deferred"),
   (.main, .str "\""), (.main, .endl),
   (.main, .str "Calling get()"), (.main, .endl)]
  ++ (if leftFirst then [(.main, .str "Task result: ")] else [])
  ++ [(.main, .str "Executing task() in thread with ID: "), (.main, .tid 0), (.main, .endl),
      (.main, .str "Returning from task()"), (.main, .endl)]
  ++ (if leftFirst then [] else [(.main, .str "Task result: ")])
  ++ [(.main, .int 42), (.main, .endl)]

/-- The number of items a call `func("deferred")` has written when the calling
thread has taken `m` steps. -/
def deferredWritten (leftFirst : Bool) (m : Nat) : Nat :=
  match m with
  | 0 => 0
  | 1 => 0
  | 2 => 1
  | 3 => 2
  | 4 => 3
  | 5 => 4
  | 6 => 4
  | 7 => 5
  | 8 => 6
  | 9 => if leftFirst then 7 else 11
  | 10 => 12
  | 11 => 13
  | _ => 14

/-- What holds in every state a call of `func` reaches; `l` is the strategy
the task is run with and `g` the step at which `get()` is called. -/
structure Inv (l : Launch) (g : Nat) (s : State) : Prop where
  raised : s.raised = none
  mpc_le : s.mpc ≤ 12
  wpc_le : s.wpc ≤ 6
  started_iff : s.started = true ↔ (l = .async ∧ 1 ≤ s.mpc)
  idle : s.started = false → s.wpc = 0
  cell_start : s.mpc = 0 → s.cell = .noState
  cell_deferred : 1 ≤ s.mpc → s.mpc ≤ g → l = .deferred → s.cell = .deferredFn
  cell_pending : 1 ≤ s.mpc → s.mpc ≤ g → l = .async → s.wpc < 6 → s.cell = .pending
  cell_ready : 1 ≤ s.mpc → s.mpc ≤ g → l = .async → s.wpc = 6 → s.cell = .ready 42
  after_get : g < s.mpc → s.cell = .noState ∧ s.read = some 42 ∧ (l = .async → s.wpc = 6)
  before_get : s.mpc ≤ g → s.read = none
  runs_eq : s.runs = (if 1 ≤ s.wpc then 1 else 0) + (if l = .deferred ∧ g < s.mpc then 1 else 0)
  written : 11 ≤ s.mpc → (Tid.main, Item.int 42) ∈ s.out

end LaunchOptions

namespace LaunchOptions.Main

/-- The lambda given to `p_task` in `main`. -/
def p_taskFn : Int → Int → Int := fun a b => wrapInt (a * b)

/-- The loop `for (int i = 0; i <= 10; ++i)` of lines 217 to 219 from the
value `i` on; `fuel` bounds the number of iterations. -/
def countLoop : Nat → Int → List Item
  | 0, _ => []
  | fuel + 1, i => if i ≤ 10 then [Item.int i, Item.endl] ++ countLoop fuel (i + 1) else []

/-- What the loop of lines 217 to 219 writes. -/
def loopItems : List Item := countLoop 12 0

/-- The state of lines 207 to 220 of `main`; the worker thread is `thr1`. -/
structure State where
  /-- The number of steps the main thread has taken. -/
  mpc : Nat
  /-- The thread `thr1`: 0 before it invokes the packaged task, 1 after. -/
  wpc : Nat
  /-- The shared state of `p_task` and `result`: the stored value. -/
  value : Option Int
  /-- Whether `result` still refers to the shared state. -/
  futValid : Bool
  /-- The value `result.get()` returned. -/
  read : Option Int
  /-- How many times the lambda of `p_task` has run. -/
  runs : Nat
  /-- An exception that has left a thread. -/
  raised : Option Exn
  /-- The items written so far, each with the thread that wrote it. -/
  out : List (Tid × Item)
  deriving DecidableEq, Repr

/-- The state in which `main` is entered. -/
def init : State :=
  { mpc := 0, wpc := 0, value := none, futValid := true, read := none, runs := 0,
    raised := none, out := [] }

/-- The call `result.get()` of line 220. -/
def getStep (s : State) : Option State :=
  if s.futValid then
    match s.value with
    | none => none
    | some v => some { s with read := some v, futValid := false, mpc := s.mpc + 1 }
  else some { s with raised := some .no_state, mpc := s.mpc + 1 }

/-- One step of the main thread in lines 207 to 220: the two items of line
207, lines 212 to 215 (after which `thr1` exists), the items of the loop, and
line 220, where the text is written before `get()` is called when `leftFirst`
holds and after it otherwise. -/
def mainStep (leftFirst : Bool) (s : State) : Option State :=
  if s.mpc = 0 then
    some { s with out := s.out ++ [(.main, .str "Hello, World!")], mpc := 1 }
  else if s.mpc = 1 then some { s with out := s.out ++ [(.main, .endl)], mpc := 2 }
  else if s.mpc = 2 then some { s with mpc := 3 }
  else match loopItems[s.mpc - 3]? with
    | some i => some { s with out := s.out ++ [(.main, i)], mpc := s.mpc + 1 }
    | none =>
      match s.mpc - (loopItems.length + 3) with
      | 0 =>
        if leftFirst then
          some { s with out := s.out ++ [(.main, .str "packaged_task version result is: ")],
                        mpc := s.mpc + 1 }
        else getStep s
      | 1 =>
        if leftFirst then getStep s
        else
          some { s with out := s.out ++ [(.main, .str "packaged_task version result is: ")],
                        mpc := s.mpc + 1 }
      | 2 =>
        match s.read with
        | some v => some { s with out := s.out ++ [(.main, .int v)], mpc := s.mpc + 1 }
        | none => none
      | 3 => some { s with out := s.out ++ [(.main, .endl)], mpc := s.mpc + 1 }
      | _ => none

/-- The step of the thread `thr1`, which invokes the packaged task with
`(a, b)`: the lambda runs and its value is stored in the shared state. -/
def thr1 (a b : Int) (s : State) : Option State :=
  if 3 ≤ s.mpc ∧ s.wpc = 0 then
    match s.value with
    | none => some { s with value := some (p_taskFn a b), runs := s.runs + 1, wpc := 1 }
    | some _ => some { s with raised := some .promise_already_satisfied, wpc := 1 }
  else none

/-- One step of thread `t`; `none` when the thread is blocked, not started or
finished, or an exception has ended the program. -/
def step (leftFirst : Bool) (a b : Int) (t : Tid) (s : State) : Option State :=
  if s.raised.isSome then none
  else match t with
    | .main => mainStep leftFirst s
    | .worker => thr1 a b s

/-- The state reached from `s` when the threads named in the interleaving take
one step each in turn; a thread that cannot move leaves the state unchanged. -/
def run (leftFirst : Bool) (a b : Int) : List Tid → State → State
  | [], s => s
  | t :: ts, s =>
    match step leftFirst a b t s with
    | some s' => run leftFirst a b ts s'
    | none => run leftFirst a b ts s

/-- The number of steps after which the main thread calls `get()`. -/
def getAt (leftFirst : Bool) : Nat := loopItems.length + 3 + (if leftFirst then 1 else 0)

/-- The number of steps the main thread takes in lines 207 to 220. -/
def lastStep : Nat := loopItems.length + 7

/-- The number of steps the two threads have left at most. -/
def stepsLeft (s : State) : Nat := (lastStep - s.mpc) + (1 - s.wpc)

/-- What holds in every state lines 207 to 220 reach; `g` is the step at
which `get()` is called. -/
structure Inv (a b : Int) (g : Nat) (s : State) : Prop where
  raised : s.raised = none
  mpc_le : s.mpc ≤ lastStep
  wpc_le : s.wpc ≤ 1
  idle : s.mpc ≤ 2 → s.wpc = 0
  not_run : s.wpc = 0 → s.value = none ∧ s.runs = 0
  ran : s.wpc = 1 → s.value = some (wrapInt (a * b)) ∧ s.runs = 1
  before_get : s.mpc ≤ g → s.futValid = true ∧ s.read = none
  after_get : g < s.mpc → s.read = some (wrapInt (a * b)) ∧ s.wpc = 1
  written : lastStep ≤ s.mpc + 1 → (Tid.main, Item.int (wrapInt (a * b))) ∈ s.out

end LaunchOptions.Main

namespace AtomicOperations

/-- The threads of the program: the main thread and the thread running
`task(n)`. -/
inductive Tid where
  | main
  | task (n : Nat)
  deriving DecidableEq, Repr

/-- The state of the spin-lock program. -/
structure State where
  /-- The flag `lock_cout`. -/
  lock_cout : Bool
  /-- The number of threads `main` has started: the value of `i` in the loop
  of lines 320 to 322. -/
  started : Nat
  /-- The number of threads `main` has joined. -/
  joined : Nat
  /-- Where thread `n` is in `task(n)`: 0 in the loop of line 271, 1 at the
  sleep of line 276, 2 to 4 writing line 277, 5 at `clear()` of line 281,
  6 returned. -/
  pc : Nat → Nat
  /-- The items written so far, each with the argument of the thread that
  wrote it. -/
  out : List (Nat × Item)

/-- The state in which `main` has started the first `k` threads and none of
them has taken a step. -/
def startedState (k : Nat) : State :=
  { lock_cout := false, started := k, joined := 0, pc := fun _ => 0, out := [] }

/-- The state in which `main` is entered: the flag is clear (`ATOMIC_FLAG_INIT`). -/
def init : State := startedState 0

/-- The state in which `lock_cout` is clear and all 11 threads are before the
loop of line 271. -/
def allStarted : State := startedState 11

/-- One step of the thread running `task(n)`.  `test_and_set()` is one atomic
step: it sets the flag and returns the previous value. -/
def task (n : Nat) (s : State) : Option State :=
  if n < s.started then
    match s.pc n with
    | 0 =>
      let previous := s.lock_cout
      let s1 := { s with lock_cout := true }
      if previous then some s1
      else some { s1 with pc := Function.update s1.pc n 1 }
    | 1 => some { s with pc := Function.update s.pc n 2 }
    | 2 =>
      some { s with out := s.out ++ [(n, .str "I'm a task with argument ")],
                    pc := Function.update s.pc n 3 }
    | 3 =>
      some { s with out := s.out ++ [(n, .int (n : Int))], pc := Function.update s.pc n 4 }
    | 4 => some { s with out := s.out ++ [(n, .endl)], pc := Function.update s.pc n 5 }
    | 5 => some { s with lock_cout := false, pc := Function.update s.pc n 6 }
    | _ => none
  else none

/-- One step of the main thread: it starts the threads for `i` from 0 to 10
and then joins them in the same order. -/
def main (s : State) : Option State :=
  if s.started ≤ 10 then some { s with started := s.started + 1 }
  else if s.joined < s.started then
    if s.pc s.joined = 6 then some { s with joined := s.joined + 1 } else none
  else none

/-- One step of thread `t`; `none` when it is blocked, not started or
finished. -/
def step (t : Tid) (s : State) : Option State :=
  match t with
  | .main => main s
  | .task n => task n s

/-- The state reached from `s` when the threads named in the interleaving take
one step each in turn; a thread that cannot move leaves the state unchanged. -/
def run : List Tid → State → State
  | [], s => s
  | t :: ts, s =>
    match step t s with
    | some s' => run ts s'
    | none => run ts s

/-- A thread at `p` is inside the critical section: it has left the loop of
line 271 and has not reached `clear()`. -/
def inCritical (p : Nat) : Prop := 1 ≤ p ∧ p ≤ 4

/-- A thread at `p` holds the lock: it has left the loop of line 271 and has
not executed `clear()`. -/
def holdsLock (p : Nat) : Prop := 1 ≤ p ∧ p ≤ 5

instance (p : Nat) : Decidable (inCritical p) := by unfold inCritical; infer_instance

instance (p : Nat) : Decidable (holdsLock p) := by unfold holdsLock; infer_instance

/-- What holds in every state the spin-lock program reaches. -/
structure Inv (s : State) : Prop where
  unique : ∀ i j, holdsLock (s.pc i) → holdsLock (s.pc j) → i = j
  locked : ∀ i, holdsLock (s.pc i) → s.lock_cout = true
  holder : s.lock_cout = true → ∃ i, holdsLock (s.pc i)
  idle : ∀ i, s.started ≤ i → s.pc i = 0
  pc_le : ∀ i, s.pc i ≤ 6

end AtomicOperations

namespace AsyncProgramming

/-- The function `produce` run to its end as one call on the shared state
`prom`: the exception that leaves the call, if any, and the shared state
afterwards. -/
def produceCall (prom : Promise) (a b : Int) : Option Exn × Promise :=
  let result := wrapInt (a + b)
  match prom.set_value result with
  | .ok p => (none, p)
  | .error e => (some e, prom)

end AsyncProgramming

namespace LaunchOptions

/-- One step of the calling thread in `func1`: the two insertions of line
195, the call of `std::async` with `std::launch::async` of line 196, and the
end of the scope of `result` at line 198, where the destructor of the future
waits until the task has finished. -/
def func1 (s : State) : Option State :=
  match s.mpc with
  | 0 => some { s with out := s.out ++ [(.main, .str "Calling async")], mpc := 1 }
  | 1 => some { s with out := s.out ++ [(.main, .endl)], mpc := 2 }
  | 2 => some { s with cell := .pending, started := true, mpc := 3 }
  | 3 =>
    match s.cell with
    | .pending => none
    | _ => some { s with cell := .noState, mpc := 4 }
  | _ => none

/-- One step of thread `t` in a call of `func1`. -/
def stepFunc1 (t : Tid) (s : State) : Option State :=
  if s.raised.isSome then none
  else match t with
    | .main => func1 s
    | .worker => worker s

/-- The state reached from `s` in a call of `func1` when the threads named in
the interleaving take one step each in turn; a thread that cannot move leaves
the state unchanged. -/
def runFunc1 : List Tid → State → State
  | [], s => s
  | t :: ts, s =>
    match stepFunc1 t s with
    | some s' => runFunc1 ts s'
    | none => runFunc1 ts s

/-- What the calling thread writes in `func1`. -/
def func1Items : List (Tid × Item) :=
  [(.main, .str "Calling async"), (.main, .endl)]

/-- What the worker thread writes when it runs `task`. -/
def workerItems : List (Tid × Item) :=
  (task .worker).1.map (fun i => (Tid.worker, i))

/-- Everything written in a call of `func1`, in order. -/
def func1Trace : List (Tid × Item) := func1Items ++ workerItems

/-- The number of steps the two threads have left at most in `func1`. -/
def stepsLeftFunc1 (s : State) : Nat := (4 - s.mpc) + (6 - s.wpc)

/-- What holds in every state a call of `func1` reaches. -/
structure InvFunc1 (s : State) : Prop where
  raised : s.raised = none
  mpc_le : s.mpc ≤ 4
  wpc_le : s.wpc ≤ 6
  started_iff : s.started = true ↔ 3 ≤ s.mpc
  idle : s.started = false → s.wpc = 0
  cell_start : s.mpc ≤ 2 → s.cell = .noState
  cell_pending : s.mpc = 3 → s.wpc < 6 → s.cell = .pending
  cell_ready : s.mpc = 3 → s.wpc = 6 → s.cell = .ready 42
  joined : s.mpc = 4 → s.wpc = 6
  unread : s.read = none
  out_eq : s.out = func1Items.take s.mpc ++ workerItems.take s.wpc

end LaunchOptions

namespace AtomicOperations

/-- The state of the program in which the threads run `task_m` instead of
`task`: as `State`, with the mutex `mut` in place of the flag. -/
structure StateM where
  /-- Whether the mutex `mut` is locked. -/
  mutex : Bool
  /-- The number of threads `main` has started. -/
  started : Nat
  /-- The number of threads `main` has joined. -/
  joined : Nat
  /-- Where thread `n` is in `task_m(n)`: 0 at the lock guard of line 289,
  1 at the sleep of line 294, 2 to 4 writing line 295, 5 at the end of the
  scope, where the lock guard unlocks the mutex, 6 returned. -/
  pc : Nat → Nat
  /-- The items written so far, each with the argument of the thread that
  wrote it. -/
  out : List (Nat × Item)

/-- One step of the thread running `task_m(n)`.  The constructor of the lock
guard blocks while the mutex is locked; its destructor unlocks the mutex when
the function returns. -/
def task_m (n : Nat) (s : StateM) : Option StateM :=
  if n < s.started then
    match s.pc n with
    | 0 =>
      if s.mutex then none
      else some { s with mutex := true, pc := Function.update s.pc n 1 }
    | 1 => some { s with pc := Function.update s.pc n 2 }
    | 2 =>
      some { s with out := s.out ++ [(n, .str "I'm a task with argument ")],
                    pc := Function.update s.pc n 3 }
    | 3 =>
      some { s with out := s.out ++ [(n, .int (n : Int))], pc := Function.update s.pc n 4 }
    | 4 => some { s with out := s.out ++ [(n, .endl)], pc := Function.update s.pc n 5 }
    | 5 => some { s with mutex := false, pc := Function.update s.pc n 6 }
    | _ => none
  else none

/-- One step of the main thread of the program with `task_m`: as `main`. -/
def mainM (s : StateM) : Option StateM :=
  if s.started ≤ 10 then some { s with started := s.started + 1 }
  else if s.joined < s.started then
    if s.pc s.joined = 6 then some { s with joined := s.joined + 1 } else none
  else none

/-- One step of thread `t` of the program with `task_m`. -/
def stepM (t : Tid) (s : StateM) : Option StateM :=
  match t with
  | .main => mainM s
  | .task n => task_m n s

/-- The state reached from `s` in the program with `task_m` when the threads
named in the interleaving take one step each in turn; a thread that cannot
move leaves the state unchanged. -/
def runM : List Tid → StateM → StateM
  | [], s => s
  | t :: ts, s =>
    match stepM t s with
    | some s' => runM ts s'
    | none => runM ts s

/-- The state of the program with `task` that corresponds to a state of the
program with `task_m`: the flag is set when the mutex is locked. -/
def StateM.toSpin (s : StateM) : State :=
  { lock_cout := s.mutex, started := s.started, joined := s.joined, pc := s.pc, out := s.out }

/-- The state of the program with `task_m` in which `main` has started the
first `k` threads and none of them has taken a step; the mutex is unlocked. -/
def startedStateM (k : Nat) : StateM :=
  { mutex := false, started := k, joined := 0, pc := fun _ => 0, out := [] }

/-- The state in which `main` of the program with `task_m` is entered. -/
def initM : StateM := startedStateM 0

/-- The line thread `n` writes. -/
def line (n : Nat) : List (Nat × Item) :=
  [(n, .str "I'm a task with argument "), (n, .int (n : Int)), (n, .endl)]

/-- A terminal state of the spin-lock program: `main` has started the 11
threads and each of them has returned. -/
def terminal (s : State) : Prop := s.started = 11 ∧ ∀ i, i < 11 → s.pc i = 6

/-- A terminal state of the program with `task_m`. -/
def terminalM (s : StateM) : Prop := s.started = 11 ∧ ∀ i, i < 11 → s.pc i = 6

instance (s : State) : Decidable (terminal s) := by unfold terminal; infer_instance

instance (s : StateM) : Decidable (terminalM s) := by unfold terminalM; infer_instance

/-- The output is made of whole lines, one for each thread that has finished
writing, in the order `order` in which they finished, followed by the part
`cur` of its line that the thread now writing has written. -/
def LinesInv (s : State) : Prop :=
  ∃ order : List Nat, ∃ cur : List (Nat × Item),
    order.Nodup ∧ (∀ n, n ∈ order ↔ 5 ≤ s.pc n) ∧
    s.out = order.flatMap line ++ cur ∧
    (∀ h, s.pc h = 3 → cur = (line h).take 1) ∧
    (∀ h, s.pc h = 4 → cur = (line h).take 2) ∧
    ((∀ h, s.pc h ≠ 3 ∧ s.pc h ≠ 4) → cur = [])

end AtomicOperations

namespace AsyncDemo

/-- The function `fib` (`int`).  `none`: an addition overflows `int`, which is
undefined behaviour. -/
def fib (n : Int) : Option Int :=
  if n ≤ 1 then some 1
  else
    match fib (n - 1), fib (n - 2) with
    | some x, some y => if inInt (x + y) then some (x + y) else none
    | _, _ => none
termination_by n.toNat
decreasing_by all_goals omega

end AsyncDemo

namespace AsyncProgramming

/-- What the claim says the loop of lines 304 to 317 writes for `i`:
"FizzBuzz" when 15 divides `i`, "Fizz" when 3 divides `i` and 5 does not,
"Buzz" when 5 divides `i` and 3 does not, and the numeral of `i` otherwise. -/
def fizzBuzzSpec (i : Nat) : Item :=
  if 15 ∣ i then .str "FizzBuzz"
  else if 3 ∣ i ∧ ¬ 5 ∣ i then .str "Fizz"
  else if 5 ∣ i ∧ ¬ 3 ∣ i then .str "Buzz"
  else .int (i : Int)

end AsyncProgramming

/-! # Theorems -/

/-! ## The `std::async()` demo -/

namespace AsyncDemo

theorem fibonacci_zero : fibonacci 0 = 1 := by
  unfold fibonacci; simp

theorem fibonacci_one : fibonacci 1 = 1 := by
  unfold fibonacci; simp

theorem fibonacci_add_two (n : Nat) :
    fibonacci (n + 2) = (fibonacci (n + 1) + fibonacci n) % 18446744073709551616 := by
  rw [fibonacci]
  simp

theorem fibPair_eq (n : Nat) : fibPair n = (fibonacci n, fibonacci (n + 1)) := by
  induction n with
  | zero => simp [fibPair, fibonacci_zero, fibonacci_one]
  | succ k ih => simp [fibPair, ih, fibonacci_add_two]

theorem fibonacci_44 : fibonacci 44 = 1134903170 := by
  have h := fibPair_eq 44
  have h2 : fibPair 44 = (1134903170, 1836311903) := by decide
  rw [h2] at h
  exact (congrArg Prod.fst h).symm

end AsyncDemo

namespace AsyncDemo

/-- Under the Immediate strategy the polling loop ends after one timeout per
second the task still needs. -/
theorem pollLoop_running {α : Type} (f : Unit → Outcome α) (dur : Nat) (out : List String) :
    pollLoop (dur + 1) (some (.running dur f)) out
      = some (some (.ready (f ())),
          out ++ List.replicate dur "Waiting for the result.....") := by
  induction dur generalizing out with
  | zero => simp [pollLoop, wait_for]
  | succ k ih =>
    rw [pollLoop]
    simp only [wait_for]
    rw [ih]
    simp [List.replicate_succ]

/-- Under the Deferred strategy the polling loop never ends. -/
theorem pollLoop_deferred {α : Type} (f : Unit → Outcome α) (fuel : Nat) (out : List String) :
    pollLoop fuel (some (.deferredFn f)) out = none := by
  induction fuel generalizing out with
  | zero => rfl
  | succ k ih =>
    rw [pollLoop]
    simp only [wait_for]
    exact ih _

/-- The run of `main` when the runtime runs the fibonacci task Immediate. -/
theorem main_async_run (rt1 : Launch) (dur dur1 : Nat) :
    main .async rt1 dur dur1 (dur + 1) = some
      { out := ["Calling fibonacci(44)"] ++ List.replicate dur "Waiting for the result....."
          ++ ["1134903170", "Future calling get()...",
              "Exception caught: std::future_error: No associated state"]
        firstRead := .ok 1134903170
        tryRead := some (.error .no_state)
        caught := some .no_state
        result1 := async .default rt1 dur1 produce } := by
  have h : toString (1134903170 : Nat) = "1134903170" := by decide
  simp only [main, async, Policy.resolve, pollLoop_running, get, fibonacci_44]
  simp [Exn.what, h]

end AsyncDemo

namespace AsyncDemo

/-- Polling a future with `wait_for` does not change what `get` delivers. -/
theorem get_wait_for {α : Type} (fut : Future α) :
    (get (wait_for fut).2).1.2 = (get fut).1.2 := by
  match fut with
  | none => rfl
  | some (.deferredFn f) => rfl
  | some (.running 0 f) => rfl
  | some (.running (left + 1) f) => rfl
  | some (.ready r) => rfl

theorem get_iterate_wait_for {α : Type} (n : Nat) (fut : Future α) :
    (get ((fun x => (wait_for x).2)^[n] fut)).1.2 = (get fut).1.2 := by
  induction n generalizing fut with
  | zero => rfl
  | succ k ih =>
    rw [Function.iterate_succ_apply, ih, get_wait_for]

/-- C1 (the code departs from the claim).  In every run of `main` that gets
past the polling loop, the handler after "Future calling get()..." receives
`future_error(no_state)`, not the failure of `produce`: line 164 reads `result`,
the fibonacci future already consumed at line 155, instead of `result1`.  The
line "Exception caught: Oops" is never printed, and the failure "Oops" stays
in `result1`, which `main` never reads. -/
theorem C1_handler_receives_no_state (rt1 : Launch) (dur dur1 : Nat) :
    ∃ r, main .async rt1 dur dur1 (dur + 1) = some r ∧
      r.caught = some .no_state ∧
      "Exception caught: Oops" ∉ r.out ∧
      "Exception caught: std::future_error: No associated state" ∈ r.out ∧
      (get r.result1).1.2 = .error (.out_of_range "Oops") := by
  refine ⟨_, main_async_run rt1 dur dur1, rfl, ?_, ?_, ?_⟩
  · simp only [List.mem_append, List.mem_replicate, List.mem_cons, List.mem_singleton,
      List.not_mem_nil, not_or]
    refine ⟨⟨by decide, fun h => absurd h.2 (by decide)⟩, by decide, by decide, by decide,
      fun h => h⟩
  · simp
  · cases rt1 <;> rfl

/-- C2.  Whatever launch policy `produce` is spawned with, whatever strategy
the runtime picks and however often the future is polled first, reading the
result delivers the exception `out_of_range` with text "Oops"; `produce` writes
nothing and never returns a value. -/
theorem C2_produce_always_fails (p : Policy) (rt : Launch) (dur n : Nat) :
    (get (async p rt dur produce)).1 = ([], .error (.out_of_range "Oops")) ∧
    (get ((fun x => (wait_for x).2)^[n] (async p rt dur produce))).1.2
      = .error (.out_of_range "Oops") ∧
    Exn.what (.out_of_range "Oops") = "Oops" ∧
    ∀ x : Int, (produce ()).2 ≠ .ok x := by
  have h : (get (async p rt dur produce)).1 = ([], .error (.out_of_range "Oops")) := by
    cases p <;> cases rt <;> rfl
  refine ⟨h, ?_, rfl, ?_⟩
  · rw [get_iterate_wait_for, h]
  · intro x hx
    simp [produce] at hx

/-- C3 (counterexample).  With both tasks run Immediate and finishing at once,
the first read delivers 1134903170 and the second read of the same future does
not deliver the same value. -/
theorem C3_second_read_differs :
    ∃ r, main .async .async 0 0 1 = some r ∧
      r.firstRead = .ok 1134903170 ∧ r.tryRead ≠ some r.firstRead := by
  refine ⟨_, main_async_run .async 0 0, rfl, ?_⟩
  intro h
  cases h

/-- C3 (amended).  When the fibonacci task runs Immediate, the first read
(line 155) delivers 1134903170; reading is one-shot: `get` releases the shared
state of whatever future it is called on, and a `get` on the released future
delivers no value. -/
theorem C3_first_read_releases_state (rt1 : Launch) (dur dur1 : Nat) :
    (∃ r, main .async rt1 dur dur1 (dur + 1) = some r ∧ r.firstRead = .ok 1134903170) ∧
    ∀ fut : Future Nat, (get fut).2 = none ∧
      ∀ v, (get (get fut).2).1.2 ≠ .ok v := by
  refine ⟨⟨_, main_async_run rt1 dur dur1, rfl⟩, ?_⟩
  intro fut
  match fut with
  | none => exact ⟨rfl, fun v h => by cases h⟩
  | some (.deferredFn f) => exact ⟨rfl, fun v h => by cases h⟩
  | some (.running _ f) => exact ⟨rfl, fun v h => by cases h⟩
  | some (.ready r) => exact ⟨rfl, fun v h => by cases h⟩

/-- C4 (the code departs from the claim).  When the runtime runs the
default-policy fibonacci task Deferred, `wait_for` reports `deferred` on every
iteration and the polling loop never ends, whatever the number of iterations:
`main` never reaches `result.get()`.  When the runtime runs it Immediate, the
loop ends after `dur` timeouts. -/
theorem C4_poll_loop_depends_on_strategy (rt1 : Launch) (dur dur1 fuel : Nat)
    (out : List String) :
    pollLoop fuel (async .default .deferred dur (fun _ => ([], .ok (fibonacci 44)))) out = none ∧
    main .deferred rt1 dur dur1 fuel = none ∧
    (wait_for (async .default .deferred dur (fun _ => ([], .ok (fibonacci 44))))).1
      = FutureStatus.deferred ∧
    ∃ r, main .async rt1 dur dur1 (dur + 1) = some r := by
  refine ⟨pollLoop_deferred _ _ _, ?_, rfl, _, main_async_run rt1 dur dur1⟩
  simp only [main, async, Policy.resolve, pollLoop_deferred]

end AsyncDemo

/-! ## The `Asynchronous_programming` demo -/

theorem wrapInt_of_inInt (x : Int) (h : inInt x) : wrapInt x = x := by
  unfold inInt at h
  unfold wrapInt
  omega

namespace AsyncProgramming

/-- C5.  For `int` values `a`, `b` whose sum is an `int`, the packaged task of
`main` invoked with `(a, b)` stores `a + b`, and `fut.get()`, called after the
invocation, returns it; before the invocation the future is not ready. -/
theorem C5_packaged_task_sum (a b : Int) (ha : inInt a) (hb : inInt b)
    (hab : inInt (a + b)) :
    mainPackaged a b = .done ([.str "Hello, World!", .endl, .str "Waiting for result", .endl,
      .str "6 + 7 is ", .int (a + b), .endl], a + b) ∧
    ∃ p, Promise.fresh.get_future = .ok p ∧ futureGet true p = none ∧
      ∃ t, PackagedTask.call ⟨ptaskFn, p⟩ a b = .ok t ∧
        futureGet true t.promise = some (.ok (a + b)) := by
  have _ := ha
  have _ := hb
  have hw := wrapInt_of_inInt (a + b) hab
  constructor
  · simp [mainPackaged, Promise.get_future, Promise.fresh, PackagedTask.call,
      Promise.set_value, futureGet, ptaskFn, hw]
  · refine ⟨⟨none, true⟩, rfl, rfl, ⟨ptaskFn, ⟨some (a + b), true⟩⟩, ?_, rfl⟩
    simp [PackagedTask.call, Promise.set_value, ptaskFn, hw]

/-- C5 at the arguments of the source: `ptask(6, 7)` and the value 13. -/
theorem C5_packaged_task_sum_witness :
    inInt 6 ∧ inInt 7 ∧ inInt (6 + 7) ∧
    mainPackaged 6 7 = .done ([.str "Hello, World!", .endl, .str "Waiting for result", .endl,
      .str "6 + 7 is ", .int 13, .endl], 13) :=
  ⟨by decide, by decide, by decide,
    (C5_packaged_task_sum 6 7 (by decide) (by decide) (by decide)).1⟩

theorem handoff_inv_init (a b : Int) : Inv a b init := by
  constructor <;> simp [init, written]

theorem written_emit (t u : Tid) (o : List (Tid × Item)) (i : Item) :
    List.map (fun x => x.2) (List.filter (fun x => decide (x.1 = t)) (o ++ [(u, i)]))
      = List.map (fun x => x.2) (List.filter (fun x => decide (x.1 = t)) o)
        ++ (if u = t then [i] else []) := by
  by_cases hu : u = t <;> simp [List.filter_append, List.filter_cons, hu]

theorem handoff_Inv_iff (a b : Int) (s : State) : Inv a b s ↔
  (s.raised = none ∧ s.mpc ≤ mainItems.length + 4 ∧ s.ppc ≤ 2 ∧ s.cpc ≤ 5 ∧ (s.mpc = 0 → s.ppc = 0) ∧ (s.mpc ≤ 1 → s.cpc = 0) ∧ (1 ≤ s.ppc → s.presult = wrapInt (a + b)) ∧ (s.ppc < 2 → s.promise.value = none) ∧ (s.ppc = 2 → s.promise.value = some (wrapInt (a + b))) ∧ (s.cpc = 0 → s.futValid = true) ∧ (1 ≤ s.cpc → s.ppc = 2 ∧ s.cresult = wrapInt (a + b)) ∧ 
  written .consumer s = List.take (s.cpc - 2)
    [.str "The final result is: ", .int (wrapInt (a + b)), .endl] ∧ (mainItems.length + 2 < s.mpc → s.ppc = 2) ∧ (mainItems.length + 3 < s.mpc → s.cpc = 5)) := by
  constructor
  · rintro ⟨h1, h2, h3, h4, h5, h6, h7, h8, h9, h10, h11, h12, h13, h14⟩
    exact ⟨h1, h2, h3, h4, h5, h6, h7, h8, h9, h10, h11, h12, h13, h14⟩
  · rintro ⟨h1, h2, h3, h4, h5, h6, h7, h8, h9, h10, h11, h12, h13, h14⟩
    exact ⟨h1, h2, h3, h4, h5, h6, h7, h8, h9, h10, h11, h12, h13, h14⟩

theorem handoff_inv_produce (a b : Int) (s s' : State) (h : Inv a b s)
    (hs : produce a b s = some s') : Inv a b s' := by
  obtain ⟨h1, h2, h3, h4, h5, h6, h7, h8, h9, h10, h11, h12, h13, h14⟩ := h
  unfold produce at hs
  simp only [handoff_Inv_iff]
  generalize hL : mainItems.length = L at *
  unfold written at *
  split at hs
  · cases hs
  · rename_i hm
    split at hs
    · rename_i hp
      cases hs
      dsimp only
      simp only [hp] at h8 h11 h13
      exact ⟨h1, h2, by omega, h4, by omega, h6, fun _ => rfl, fun _ => h8 (by omega),
        by omega, h10, fun hc => absurd (h11 hc).1 (by omega), h12,
        fun hc => absurd (h13 hc) (by omega), h14⟩
    · rename_i hp
      have hv := h8 (by omega)
      simp only [Promise.set_value, hv] at hs
      simp only [Option.isSome_none, Bool.false_eq_true, if_false, Option.some.injEq] at hs
      cases hs
      dsimp only
      simp only [hp] at h7 h11 h13
      exact ⟨h1, h2, by omega, h4, by omega, h6, fun _ => h7 (by omega), by omega,
        fun _ => by rw [h7 (by omega)], h10, fun hc => ⟨rfl, (h11 hc).2⟩, h12,
        fun _ => rfl, h14⟩
    · cases hs

theorem handoff_inv_consume (a b : Int) (s s' : State) (h : Inv a b s)
    (hs : consume s = some s') : Inv a b s' := by
  obtain ⟨h1, h2, h3, h4, h5, h6, h7, h8, h9, h10, h11, h12, h13, h14⟩ := h
  unfold consume at hs
  simp only [handoff_Inv_iff]
  generalize hL : mainItems.length = L at *
  unfold written at *
  split at hs
  · cases hs
  · rename_i hm
    split at hs
    · rename_i hp
      have hv := h10 hp
      simp only [futureGet, hv] at hs
      rcases hpp : s.promise.value with _ | v
      · simp [hpp] at hs
      · simp [hpp] at hs
        cases hs
        have h2' : s.ppc = 2 := by
          by_contra hne
          have := h8 (by omega)
          simp_all
        have := h9 h2'
        dsimp only
        simp only [hp] at h12 ⊢
        refine ⟨h1, h2, h3, by omega, h5, by omega, h7, h8, h9, by omega, ?_, h12, h13, by omega⟩
        intro _
        refine ⟨h2', ?_⟩
        rw [hpp] at this
        exact Option.some.inj this
    · rename_i hp
      cases hs
      dsimp only
      simp only [hp] at h12 h11 ⊢
      exact ⟨h1, h2, h3, by omega, h5, by omega, h7, h8, h9, by omega, fun _ => h11 (by omega), h12, h13, by omega⟩
    · rename_i hp
      cases hs
      dsimp only
      simp only [hp] at h12 h11 ⊢
      refine ⟨h1, h2, h3, by omega, h5, by omega, h7, h8, h9, by omega, fun _ => h11 (by omega), ?_, h13, by omega⟩
      rw [written_emit, h12]
      rfl
    · rename_i hp
      cases hs
      dsimp only
      simp only [hp] at h12 h11 ⊢
      refine ⟨h1, h2, h3, by omega, h5, by omega, h7, h8, h9, by omega, fun _ => h11 (by omega), ?_, h13, by omega⟩
      rw [written_emit, h12, (h11 (by omega)).2]
      rfl
    · rename_i hp
      cases hs
      dsimp only
      simp only [hp] at h12 h11 ⊢
      refine ⟨h1, h2, h3, by omega, h5, by omega, h7, h8, h9, by omega, fun _ => h11 (by omega), ?_, h13, by omega⟩
      rw [written_emit, h12]
      rfl
    · cases hs

theorem handoff_inv_main (a b : Int) (s s' : State) (h : Inv a b s)
    (hs : mainStep s = some s') : Inv a b s' := by
  obtain ⟨h1, h2, h3, h4, h5, h6, h7, h8, h9, h10, h11, h12, h13, h14⟩ := h
  unfold mainStep at hs
  simp only [handoff_Inv_iff]
  unfold written at *
  split at hs
  · rename_i hm
    cases hs
    dsimp only
    refine ⟨h1, by omega, h3, h4, by omega, ?_, h7, h8, h9, h10, h11, h12, by omega, by omega⟩
    intro hle
    exact h6 (by omega)
  · rename_i hm
    split at hs
    · rename_i i hi
      have hlt : s.mpc - 2 < mainItems.length := (List.getElem?_eq_some.mp hi).1
      cases hs
      dsimp only
      refine ⟨h1, by omega, h3, h4, by omega, by omega, h7, h8, h9, h10, h11, ?_,
        by omega, by omega⟩
      rw [written_emit, h12]
      simp
    · split at hs
      · rename_i heq
        split at hs
        · rename_i hp
          cases hs
          dsimp only
          exact ⟨h1, by omega, h3, h4, by omega, by omega, h7, h8, h9, h10, h11, h12,
            fun _ => hp, by omega⟩
        · cases hs
      · rename_i hne
        split at hs
        · rename_i heq
          split at hs
          · rename_i hc
            cases hs
            dsimp only
            exact ⟨h1, by omega, h3, h4, by omega, by omega, h7, h8, h9, h10, h11, h12,
              fun _ => h13 (by omega), fun _ => hc⟩
          · cases hs
        · cases hs

theorem handoff_inv_step (a b : Int) (t : Tid) (s s' : State) (h : Inv a b s)
    (hs : step a b t s = some s') : Inv a b s' := by
  unfold step at hs
  split at hs
  · cases hs
  · cases t
    · exact handoff_inv_main a b s s' h hs
    · exact handoff_inv_produce a b s s' h hs
    · exact handoff_inv_consume a b s s' h hs

theorem handoff_inv_run (a b : Int) (sched : List Tid) (s : State) (h : Inv a b s) :
    Inv a b (run a b sched s) := by
  induction sched generalizing s with
  | nil => exact h
  | cons t ts ih =>
    rw [run]
    split
    · rename_i s' hs
      exact ih s' (handoff_inv_step a b t s s' h hs)
    · exact ih s h

/-- While the main thread has not returned, some thread can take a step. -/
theorem handoff_progress (a b : Int) (s : State) (h : Inv a b s)
    (hm : s.mpc < mainItems.length + 4) : ∃ t, (step a b t s).isSome = true := by
  obtain ⟨h1, h2, h3, h4, h5, h6, h7, h8, h9, h10, h11, h12, h13, h14⟩ := h
  have hr : s.raised.isSome = false := by rw [h1]; rfl
  by_cases c1 : s.mpc < 2
  · exact ⟨.main, by simp only [step, hr, mainStep, c1]; simp⟩
  by_cases c2 : s.mpc - 2 < mainItems.length
  · have hi : mainItems[s.mpc - 2]? = some (mainItems[s.mpc - 2]) :=
      List.getElem?_eq_getElem c2
    exact ⟨.main, by simp only [step, hr, mainStep, c1, hi]; simp⟩
  have hi : mainItems[s.mpc - 2]? = none := List.getElem?_eq_none (by omega)
  by_cases c3 : s.mpc = mainItems.length + 2
  · by_cases c4 : s.ppc = 2
    · exact ⟨.main, by simp only [step, hr, mainStep, c1, hi]; simp [c3, c4]⟩
    · have hp : s.ppc = 0 ∨ s.ppc = 1 := by omega
      have hm0 : ¬ s.mpc = 0 := by omega
      rcases hp with hp | hp
      · exact ⟨.producer, by simp only [step, hr, produce, hm0, hp]; simp⟩
      · have hv := h8 (by omega)
        exact ⟨.producer, by
          simp only [step, hr, produce, hm0, hp, Promise.set_value, hv]; simp⟩
  · have c5 : s.mpc = mainItems.length + 3 := by omega
    by_cases c6 : s.cpc = 5
    · exact ⟨.main, by simp only [step, hr, mainStep, c1, hi]; simp [c5, c6]⟩
    · have hm1 : ¬ s.mpc ≤ 1 := by omega
      have hp2 := h13 (by omega)
      have hv := h9 hp2
      have hc : s.cpc = 0 ∨ s.cpc = 1 ∨ s.cpc = 2 ∨ s.cpc = 3 ∨ s.cpc = 4 := by omega
      rcases hc with hc | hc | hc | hc | hc
      · have hf := h10 hc
        exact ⟨.consumer, by
          simp only [step, hr, consume, hm1, hc, futureGet, hf, hv]; simp⟩
      · exact ⟨.consumer, by simp only [step, hr, consume, hm1, hc]; simp⟩
      · exact ⟨.consumer, by simp only [step, hr, consume, hm1, hc]; simp⟩
      · exact ⟨.consumer, by simp only [step, hr, consume, hm1, hc]; simp⟩
      · exact ⟨.consumer, by simp only [step, hr, consume, hm1, hc]; simp⟩

/-- Every step uses up one of the steps the threads have left. -/
theorem handoff_stepsLeft_step (a b : Int) (t : Tid) (s s' : State)
    (hs : step a b t s = some s') : stepsLeft s' < stepsLeft s := by
  unfold step at hs
  unfold stepsLeft
  split at hs
  · cases hs
  · cases t
    · simp only [mainStep] at hs
      split at hs
      · cases hs; dsimp only; omega
      · split at hs
        · rename_i i hi
          have hlt : s.mpc - 2 < mainItems.length := (List.getElem?_eq_some.mp hi).1
          cases hs; dsimp only; omega
        · split at hs
          · split at hs
            · cases hs; dsimp only; omega
            · cases hs
          · split at hs
            · split at hs
              · cases hs; dsimp only; omega
              · cases hs
            · cases hs
    · simp only [produce] at hs
      split at hs
      · cases hs
      · split at hs
        · cases hs; dsimp only; omega
        · split at hs <;> (cases hs; dsimp only; omega)
        · cases hs
    · simp only [consume] at hs
      split at hs
      · cases hs
      · split at hs
        · split at hs
          · cases hs
          · cases hs; dsimp only; omega
          · cases hs; dsimp only; omega
        · cases hs; dsimp only; omega
        · cases hs; dsimp only; omega
        · cases hs; dsimp only; omega
        · cases hs; dsimp only; omega
        · cases hs

end AsyncProgramming

namespace AsyncProgramming

/-- C10.  For `int` values `a`, `b` whose sum is an `int`, in the state reached
under any interleaving of `main`, `produce(promise, a, b)` and
`consume(future)`:
* if `consume` has obtained its value, `produce` has finished resolving the
  promise, the promise holds `a + b`, and the value obtained is `a + b`;
* what `consume` has written is the beginning of the line
  "The final result is: " `a + b`, and the whole line once it has finished;
* no exception has been raised;
* as long as `main` has not returned some thread can move, and when `main` has
  returned the line is written in full;
* every step uses up one of finitely many steps, so every interleaving ends. -/
theorem C10_handoff (a b : Int) (ha : inInt a) (hb : inInt b) (hab : inInt (a + b))
    (sched : List Tid) :
    (1 ≤ (run a b sched init).cpc →
      (run a b sched init).ppc = 2 ∧ (run a b sched init).promise.value = some (a + b) ∧
      (run a b sched init).cresult = a + b) ∧
    written .consumer (run a b sched init)
      = List.take ((run a b sched init).cpc - 2)
          [.str "The final result is: ", .int (a + b), .endl] ∧
    ((run a b sched init).cpc = 5 → written .consumer (run a b sched init)
      = [.str "The final result is: ", .int (a + b), .endl]) ∧
    (run a b sched init).raised = none ∧
    ((run a b sched init).mpc < mainItems.length + 4 →
      ∃ t, (step a b t (run a b sched init)).isSome = true) ∧
    ((run a b sched init).mpc = mainItems.length + 4 →
      written .consumer (run a b sched init)
        = [.str "The final result is: ", .int (a + b), .endl]) ∧
    (∀ t s', step a b t (run a b sched init) = some s' →
      stepsLeft s' < stepsLeft (run a b sched init)) := by
  have _ := ha
  have _ := hb
  have hw := wrapInt_of_inInt (a + b) hab
  have hinv := handoff_inv_run a b sched init (handoff_inv_init a b)
  generalize run a b sched init = s at hinv
  have hcout := hinv.cout
  rw [hw] at hcout
  refine ⟨?_, hcout, ?_, hinv.raised, handoff_progress a b s hinv, ?_,
    fun t s' hs => handoff_stepsLeft_step a b t s s' hs⟩
  · intro hc
    have hg := hinv.got hc
    have hset := hinv.set hg.1
    rw [hw] at hset
    exact ⟨hg.1, hset, hg.2.trans hw⟩
  · intro hc
    rw [hcout, hc]
    rfl
  · intro hm
    have hc := hinv.joined_c (by omega)
    rw [hcout, hc]
    rfl

/-- C10 at the arguments of the source, `produce(promise, 7, 8)`, for the
interleaving in which `main` starts both threads, `produce` runs and then
`consume`: the line written is "The final result is: 15". -/
theorem C10_handoff_witness :
    inInt 7 ∧ inInt 8 ∧ inInt (7 + 8) ∧
    written .consumer (run 7 8 [.main, .main, .producer, .producer, .consumer, .consumer,
      .consumer, .consumer, .consumer] init)
      = [.str "The final result is: ", .int 15, .endl] :=
  ⟨by decide, by decide, by decide,
    (C10_handoff 7 8 (by decide) (by decide) (by decide) [.main, .main, .producer, .producer,
      .consumer, .consumer, .consumer, .consumer, .consumer]).2.2.1 (by decide)⟩

end AsyncProgramming

/-! ## The launch options demo -/

namespace LaunchOptions

theorem func_Inv_iff (l : Launch) (g : Nat) (s : State) : Inv l g s ↔
    (s.raised = none ∧ s.mpc ≤ 12 ∧ s.wpc ≤ 6 ∧
     (s.started = true ↔ (l = .async ∧ 1 ≤ s.mpc)) ∧
     (s.started = false → s.wpc = 0) ∧
     (s.mpc = 0 → s.cell = .noState) ∧
     (1 ≤ s.mpc → s.mpc ≤ g → l = .deferred → s.cell = .deferredFn) ∧
     (1 ≤ s.mpc → s.mpc ≤ g → l = .async → s.wpc < 6 → s.cell = .pending) ∧
     (1 ≤ s.mpc → s.mpc ≤ g → l = .async → s.wpc = 6 → s.cell = .ready 42) ∧
     (g < s.mpc → s.cell = .noState ∧ s.read = some 42 ∧ (l = .async → s.wpc = 6)) ∧
     (s.mpc ≤ g → s.read = none) ∧
     s.runs = (if 1 ≤ s.wpc then 1 else 0) + (if l = .deferred ∧ g < s.mpc then 1 else 0) ∧
     (11 ≤ s.mpc → (Tid.main, Item.int 42) ∈ s.out)) := by
  constructor
  · rintro ⟨h1, h2, h3, h4, h5, h6, h7, h8, h9, h10, h11, h12, h13⟩
    exact ⟨h1, h2, h3, h4, h5, h6, h7, h8, h9, h10, h11, h12, h13⟩
  · rintro ⟨h1, h2, h3, h4, h5, h6, h7, h8, h9, h10, h11, h12, h13⟩
    exact ⟨h1, h2, h3, h4, h5, h6, h7, h8, h9, h10, h11, h12, h13⟩

theorem func_inv_init (l : Launch) (g : Nat) : Inv l g init := by
  rw [func_Inv_iff]
  simp [init]

theorem func_inv_getStep (l : Launch) (lf : Bool) (s s' : State) (h : Inv l (getAt lf) s)
    (hg : s.mpc = getAt lf) (hs : getStep s = some s') : Inv l (getAt lf) s' := by
  have hg' : getAt lf = 8 ∨ getAt lf = 9 := by cases lf <;> simp [getAt]
  rw [func_Inv_iff] at h ⊢
  obtain ⟨h1, h2, h3, h4, h5, h6, h7, h8, h9, h10, h11, h12, h13⟩ := h
  generalize getAt lf = g at *
  unfold getStep at hs
  cases l
  · -- async
    have hst : s.started = true := h4.mpr ⟨rfl, by omega⟩
    by_cases hw : s.wpc = 6
    · have hc := h9 (by omega) (by omega) rfl hw
      rw [hc] at hs
      cases hs
      simp_all
      omega
    · have hc := h8 (by omega) (by omega) rfl (by omega)
      rw [hc] at hs
      cases hs
  · have hc := h7 (by omega) (by omega) rfl
    rw [hc] at hs
    cases hs
    have hst : s.started = false := by
      cases hh : s.started
      · rfl
      · exact absurd (h4.mp hh).1 (by decide)
    have hw := h5 hst
    simp_all [task]
    omega

theorem inv_func (lf : Bool) (option : String) (rt : Launch) (s s' : State)
    (h : Inv ((policyOf option).resolve rt) (getAt lf) s)
    (hs : func lf option rt s = some s') :
    Inv ((policyOf option).resolve rt) (getAt lf) s' := by
  have hg' : getAt lf = if lf then 9 else 8 := rfl
  unfold func at hs
  split at hs
  · -- spawn
    rename_i hpc
    rw [func_Inv_iff] at h ⊢
    generalize (policyOf option).resolve rt = l at *
    obtain ⟨h1, h2, h3, h4, h5, h6, h7, h8, h9, h10, h11, h12, h13⟩ := h
    have hst : s.started = false := by
      cases hh : s.started
      · rfl
      · exact absurd (h4.mp hh).2 (by omega)
    have hw := h5 hst
    cases l <;> cases lf <;> (simp only [] at hs; cases hs; simp_all)
  case h_9 hpc =>
    cases lf
    · exact func_inv_getStep _ false s s' h (by rw [hpc]; rfl) hs
    · simp only [if_true] at hs
      cases hs
      rw [func_Inv_iff] at h ⊢
      generalize (policyOf option).resolve rt = l at *
      cases l <;> simp_all
  case h_10 hpc =>
    cases lf
    · simp only [Bool.false_eq_true, if_false] at hs
      cases hs
      rw [func_Inv_iff] at h ⊢
      generalize (policyOf option).resolve rt = l at *
      cases l <;> simp_all
    · exact func_inv_getStep _ true s s' h (by rw [hpc]; rfl) hs
  case h_11 hpc =>
    rw [func_Inv_iff] at h ⊢
    generalize (policyOf option).resolve rt = l at *
    have hr := (h.2.2.2.2.2.2.2.2.2.1 (by cases lf <;> simp [hg'] <;> omega)).2.1
    rw [hr] at hs
    cases hs
    cases l <;> cases lf <;> simp_all
  case h_13 => cases hs
  all_goals
    rename_i hpc
    rw [func_Inv_iff] at h ⊢
    generalize (policyOf option).resolve rt = l at *
    cases hs
    cases l <;> cases lf <;> simp_all

theorem inv_worker (l : Launch) (g : Nat) (s s' : State) (h : Inv l g s)
    (hs : worker s = some s') : Inv l g s' := by
  unfold worker at hs
  have hlen : (task .worker).1.length = 5 := rfl
  rw [func_Inv_iff] at h ⊢
  obtain ⟨h1, h2, h3, h4, h5, h6, h7, h8, h9, h10, h11, h12, h13⟩ := h
  split at hs
  · rename_i hst
    have hl := (h4.mp hst).1
    have hm := (h4.mp hst).2
    subst hl
    split at hs
    · rename_i i hi
      have hlt : s.wpc < 5 := by
        have := (List.getElem?_eq_some.mp hi).1
        omega
      cases hs
      dsimp only
      have hg : s.mpc ≤ g := by
        by_contra hc
        have := (h10 (by omega)).2.2 rfl
        omega
      refine ⟨h1, h2, by omega, h4, fun hf => absurd hst (by simp [hf]), h6, h7,
        fun a b c d => h8 a b c (by omega), fun a b c d => absurd d (by omega),
        fun hc => absurd hc (by omega), h11, ?_,
        fun hc => List.mem_append_left _ (h13 hc)⟩
      rw [h12]
      by_cases hw : s.wpc = 0
      · simp [hw]
      · have : 1 ≤ s.wpc := by omega
        simp [hw, this]
    · split at hs
      · rename_i hw
        rw [hlen] at hw
        cases hs
        dsimp only
        have hg : s.mpc ≤ g := by
          by_contra hc
          have := (h10 (by omega)).2.2 rfl
          omega
        refine ⟨h1, h2, by omega, h4, fun hf => absurd hst (by simp [hf]),
          fun hc => absurd hc (by omega), fun _ _ hc => absurd hc (by decide),
          fun a b c d => absurd d (by omega), fun _ _ _ _ => rfl,
          fun hc => absurd hc (by omega), h11, ?_, h13⟩
        rw [h12]
        simp [hw]
      · cases hs
  · cases hs

theorem func_inv_step (lf : Bool) (option : String) (rt : Launch) (t : Tid) (s s' : State)
    (h : Inv ((policyOf option).resolve rt) (getAt lf) s)
    (hs : step lf option rt t s = some s') :
    Inv ((policyOf option).resolve rt) (getAt lf) s' := by
  unfold step at hs
  split at hs
  · cases hs
  · cases t
    · exact inv_func lf option rt s s' h hs
    · exact inv_worker _ _ s s' h hs

theorem func_inv_run (lf : Bool) (option : String) (rt : Launch) (sched : List Tid) (s : State)
    (h : Inv ((policyOf option).resolve rt) (getAt lf) s) :
    Inv ((policyOf option).resolve rt) (getAt lf) (run lf option rt sched s) := by
  induction sched generalizing s with
  | nil => exact h
  | cons t ts ih =>
    rw [run]
    split
    · rename_i s' hs
      exact ih s' (func_inv_step lf option rt t s s' h hs)
    · exact ih s h

theorem func_getStep_progress (l : Launch) (lf : Bool) (s : State) (h : Inv l (getAt lf) s)
    (hg : s.mpc = getAt lf) :
    (getStep s).isSome = true ∨ (worker s).isSome = true := by
  have hg' : getAt lf = 8 ∨ getAt lf = 9 := by cases lf <;> simp [getAt]
  rw [func_Inv_iff] at h
  obtain ⟨h1, h2, h3, h4, h5, h6, h7, h8, h9, h10, h11, h12, h13⟩ := h
  generalize getAt lf = g at *
  cases l
  · have hst : s.started = true := h4.mpr ⟨rfl, by omega⟩
    by_cases hw : s.wpc = 6
    · left
      have hc := h9 (by omega) (by omega) rfl hw
      simp [getStep, hc]
    · right
      by_cases hw5 : s.wpc = 5
      · simp [worker, hst, hw5, task]
      · have hlt : s.wpc < (task .worker).1.length := by
          have : (task .worker).1.length = 5 := rfl
          omega
        simp only [worker, hst, if_true, List.getElem?_eq_getElem hlt]
        rfl
  · left
    have hc := h7 (by omega) (by omega) rfl
    simp [getStep, hc]

/-- While the calling thread has not left `func`, some thread can take a step. -/
theorem func_progress (lf : Bool) (option : String) (rt : Launch) (s : State)
    (h : Inv ((policyOf option).resolve rt) (getAt lf) s) (hm : s.mpc < 12) :
    ∃ t, (step lf option rt t s).isSome = true := by
  have hr : s.raised.isSome = false := by rw [h.raised]; rfl
  have hgp := func_getStep_progress _ lf s h
  have hread := h.after_get
  generalize (policyOf option).resolve rt = l at *
  obtain ⟨m, hmm⟩ : ∃ m, s.mpc = m := ⟨_, rfl⟩
  rw [hmm] at hm
  have key : (func lf option rt s).isSome = true ∨ (worker s).isSome = true := by
    interval_cases m
    case «8» =>
      cases lf
      · simpa [func, hmm] using hgp (by simp [hmm, getAt])
      · left; simp [func, hmm]
    case «9» =>
      cases lf
      · left; simp [func, hmm]
      · simpa [func, hmm] using hgp (by simp [hmm, getAt])
    case «10» =>
      left
      have := (hread (by cases lf <;> simp [getAt, hmm])).2.1
      simp [func, hmm, this]
    case «0» =>
      left
      simp only [func, hmm]
      split <;> rfl
    all_goals (left; simp [func, hmm])
  rcases key with k | k
  · exact ⟨.main, by simpa [step, hr] using k⟩
  · exact ⟨.worker, by simpa [step, hr] using k⟩

/-- Every step uses up one of the steps the threads have left. -/
theorem func_stepsLeft_step (lf : Bool) (option : String) (rt : Launch) (t : Tid) (s s' : State)
    (hs : step lf option rt t s = some s') : stepsLeft s' < stepsLeft s := by
  unfold step at hs
  unfold stepsLeft
  split at hs
  · cases hs
  · cases t
    · simp only [func] at hs
      split at hs
      case h_1 hpc =>
        split at hs <;> (cases hs; dsimp only; omega)
      case h_9 hpc =>
        cases lf
        · simp only [Bool.false_eq_true, if_false, getStep] at hs
          split at hs <;> first | (cases hs; dsimp only; omega) | cases hs
        · simp only [if_true] at hs
          cases hs; dsimp only; omega
      case h_10 hpc =>
        cases lf
        · simp only [Bool.false_eq_true, if_false] at hs
          cases hs; dsimp only; omega
        · simp only [if_true, getStep] at hs
          split at hs <;> first | (cases hs; dsimp only; omega) | cases hs
      case h_11 hpc =>
        split at hs
        · cases hs; dsimp only; omega
        · cases hs
      case h_13 => cases hs
      all_goals (cases hs; dsimp only; omega)
    · simp only [worker] at hs
      have hlen : (task .worker).1.length = 5 := rfl
      split at hs
      · split at hs
        · rename_i i hi
          have := (List.getElem?_eq_some.mp hi).1
          cases hs; dsimp only; omega
        · split at hs
          · cases hs; dsimp only; omega
          · cases hs
      · cases hs

theorem policyOf_deferred (rt : Launch) : (policyOf "deferred").resolve rt = .deferred := by
  have h : policyOf "deferred" = .deferred := by decide
  rw [h]
  rfl

theorem deferredOut_step (lf : Bool) (rt : Launch) (t : Tid) (s s' : State)
    (h : Inv .deferred (getAt lf) s)
    (ho : s.out = (deferredTrace lf).take (deferredWritten lf s.mpc))
    (hs : step lf "deferred" rt t s = some s') :
    s'.out = (deferredTrace lf).take (deferredWritten lf s'.mpc) := by
  unfold step at hs
  split at hs
  · cases hs
  · cases t
    · -- the calling thread
      have hcell := h.cell_deferred
      simp only [func, policyOf_deferred] at hs
      split at hs
      case h_9 hpc =>
        cases lf
        · have hc := hcell (by omega) (by rw [hpc]; decide) rfl
          simp only [Bool.false_eq_true, if_false, getStep, hc] at hs
          cases hs
          simp only [ho, hpc]
          decide
        · simp only [if_true] at hs
          cases hs
          simp only [ho, hpc]
          decide
      case h_10 hpc =>
        cases lf
        · simp only [Bool.false_eq_true, if_false] at hs
          cases hs
          simp only [ho, hpc]
          decide
        · have hc := hcell (by omega) (by rw [hpc]; decide) rfl
          simp only [if_true, getStep, hc] at hs
          cases hs
          simp only [ho, hpc]
          decide
      case h_11 hpc =>
        have hr := (h.after_get (by rw [hpc]; cases lf <;> decide)).2.1
        rw [hr] at hs
        cases hs
        simp only [ho, hpc]
        cases lf <;> decide
      case h_13 => cases hs
      all_goals
        rename_i hpc
        cases hs
        simp only [ho, hpc]
        cases lf <;> decide
    · -- the worker thread is never started
      have hst : s.started = false := by
        cases hh : s.started
        · rfl
        · exact absurd (h.started_iff.mp hh).1 (by decide)
      simp [worker, hst] at hs

theorem deferredOut_run (lf : Bool) (rt : Launch) (sched : List Tid) (s : State)
    (h : Inv .deferred (getAt lf) s)
    (ho : s.out = (deferredTrace lf).take (deferredWritten lf s.mpc)) :
    (run lf "deferred" rt sched s).out
      = (deferredTrace lf).take (deferredWritten lf (run lf "deferred" rt sched s).mpc) := by
  induction sched generalizing s with
  | nil => exact ho
  | cons t ts ih =>
    rw [run]
    split
    · rename_i s' hs
      have h' := func_inv_step lf "deferred" rt t s s' (by rw [policyOf_deferred]; exact h) hs
      rw [policyOf_deferred] at h'
      exact ih s' h' (deferredOut_step lf rt t s s' h ho hs)
    · exact ih s h ho

/-- C7 (counterexample).  In `func("deferred")` with line 180 evaluated left
to right, as C++17 requires, the text "Task result: " is written before `task`
runs: after nine steps of the calling thread it is in the output while `task`
has been entered zero times.  In the complete output it stands before the
first text of `task`, and "Task result: " is nowhere followed directly by 42:
the lines of `task` stand between them. -/
theorem C7_text_written_before_task :
    (run true "deferred" .async (List.replicate 9 .main) init).runs = 0 ∧
    (Tid.main, Item.str "Task result: ")
      ∈ (run true "deferred" .async (List.replicate 9 .main) init).out ∧
    (run true "deferred" .async (List.replicate 12 .main) init).out = deferredTrace true ∧
    (deferredTrace true).indexOf (.main, .str "Task result: ")
      < (deferredTrace true).indexOf (.main, .str "Executing task() in thread with ID: ") ∧
    (deferredTrace true).indexOf (.main, .str "Task result: ") + 1
      ≠ (deferredTrace true).indexOf (.main, .int 42) ∧
    ¬ ([(Tid.main, Item.str "Task result: "), (Tid.main, Item.int 42)]
        <:+: deferredTrace true) := by
  refine ⟨by decide, by decide, by decide, by decide, by decide, ?_⟩
  decide

/-- C7 (amended).  In a call `func("deferred")`, under any schedule:
* what has been written is always an initial part of `deferredTrace`, and is
  all of it when `func` returns;
* `task` has been entered zero times as long as the calling thread has not
  called `get()`, and exactly once afterwards;
* the calling thread is never blocked, so the call returns: twelve steps of
  the calling thread write all of `deferredTrace`;
* in `deferredTrace` the two texts of `task` occur once each, after
  "Calling get()" and before the value 42 of the last line, every item is
  written by the calling thread, and the thread identifier `task` writes is
  that of the calling thread;
* the text "Task result: " of the last line is written after "Calling get()"
  and before the texts of `task` when line 180 is evaluated left to right (the
  order C++17 fixes), so that the lines of `task` stand between it and 42; it
  is written after the texts of `task`, directly before 42, otherwise. -/
theorem C7_deferred_laziness (leftFirst : Bool) (rt : Launch) (sched : List Tid) :
    (run leftFirst "deferred" rt sched init).out <+: deferredTrace leftFirst ∧
    ((run leftFirst "deferred" rt sched init).mpc = 12 →
      (run leftFirst "deferred" rt sched init).out = deferredTrace leftFirst) ∧
    ((run leftFirst "deferred" rt sched init).mpc ≤ getAt leftFirst →
      (run leftFirst "deferred" rt sched init).runs = 0) ∧
    (getAt leftFirst < (run leftFirst "deferred" rt sched init).mpc →
      (run leftFirst "deferred" rt sched init).runs = 1) ∧
    ((run leftFirst "deferred" rt sched init).mpc < 12 →
      (step leftFirst "deferred" rt .main (run leftFirst "deferred" rt sched init)).isSome
        = true) ∧
    (run leftFirst "deferred" rt (List.replicate 12 .main) init).out
      = deferredTrace leftFirst ∧
    (deferredTrace leftFirst).count (.main, .str "Executing task() in thread with ID: ") = 1 ∧
    (deferredTrace leftFirst).count (.main, .str "Returning from task()") = 1 ∧
    (deferredTrace leftFirst).indexOf (.main, .str "Calling get()")
      < (deferredTrace leftFirst).indexOf (.main, .str "Executing task() in thread with ID: ") ∧
    (deferredTrace leftFirst).indexOf (.main, .str "Executing task() in thread with ID: ") + 1
      = (deferredTrace leftFirst).indexOf (.main, .tid Tid.main.num) ∧
    (deferredTrace leftFirst).indexOf (.main, .str "Executing task() in thread with ID: ")
      < (deferredTrace leftFirst).indexOf (.main, .str "Returning from task()") ∧
    (deferredTrace leftFirst).indexOf (.main, .str "Returning from task()")
      < (deferredTrace leftFirst).indexOf (.main, .int 42) ∧
    (∀ x ∈ deferredTrace leftFirst, x.1 = Tid.main) ∧
    (deferredTrace leftFirst).count (.main, .str "Task result: ") = 1 ∧
    (deferredTrace leftFirst).indexOf (.main, .str "Calling get()")
      < (deferredTrace leftFirst).indexOf (.main, .str "Task result: ") ∧
    (deferredTrace leftFirst).indexOf (.main, .str "Task result: ")
      < (deferredTrace leftFirst).indexOf (.main, .int 42) ∧
    (deferredTrace true).indexOf (.main, .str "Task result: ")
      < (deferredTrace true).indexOf (.main, .str "Executing task() in thread with ID: ") ∧
    (deferredTrace false).indexOf (.main, .str "Returning from task()")
      < (deferredTrace false).indexOf (.main, .str "Task result: ") ∧
    (deferredTrace false).indexOf (.main, .str "Task result: ") + 1
      = (deferredTrace false).indexOf (.main, .int 42) := by
  have hinv0 : Inv .deferred (getAt leftFirst) init := func_inv_init _ _
  have hinv := func_inv_run leftFirst "deferred" rt sched init
    (by rw [policyOf_deferred]; exact hinv0)
  rw [policyOf_deferred] at hinv
  have hout := deferredOut_run leftFirst rt sched init hinv0 rfl
  have hprog := func_progress leftFirst "deferred" rt (run leftFirst "deferred" rt sched init)
    (by rw [policyOf_deferred]; exact hinv)
  generalize run leftFirst "deferred" rt sched init = s at *
  have hst : s.started = false := by
    cases hh : s.started
    · rfl
    · exact absurd (hinv.started_iff.mp hh).1 (by decide)
  have hw := hinv.idle hst
  have hruns := hinv.runs_eq
  refine ⟨?_, ?_, ?_, ?_, ?_, ?_, ?_, ?_, ?_, ?_, ?_, ?_, ?_, ?_, ?_, ?_,
    by decide, by decide, by decide⟩
  · rw [hout]
    exact List.take_prefix _ _
  · intro hm
    rw [hout, hm]
    cases leftFirst <;> rfl
  · intro hm
    rw [hruns, hw]
    have : ¬ getAt leftFirst < s.mpc := by omega
    simp [this]
  · intro hm
    rw [hruns, hw]
    simp [hm]
  · intro hm
    obtain ⟨t, ht⟩ := hprog hm
    cases t
    · exact ht
    · have hr : s.raised.isSome = false := by rw [hinv.raised]; rfl
      simp [step, hr, worker, hst] at ht
  · cases leftFirst <;> cases rt <;> decide
  all_goals cases leftFirst <;> decide

/-- The run of `func(option)` in which the worker thread, if there is one, runs
`task` to its end as soon as it is started. -/
theorem func_complete_run (leftFirst : Bool) (option : String) (rt : Launch) :
    (run leftFirst option rt ([.main] ++ List.replicate 6 .worker ++ List.replicate 11 .main)
      init).mpc = 12 ∧
    (run leftFirst option rt ([.main] ++ List.replicate 6 .worker ++ List.replicate 11 .main)
      init).read = some 42 := by
  rcases h : (policyOf option).resolve rt <;> cases leftFirst <;>
    simp [run, step, func, worker, getStep, init, h, task, List.replicate]

/-- C8.  For every option string, every choice of the runtime and every
schedule, in the state a call `func(option)` has reached: the value `get()`
returned, if it has returned, is 42, the value `task` returns in whichever
thread it runs; no exception has been raised; `task` has been entered at most
once; as long as `func` has not returned some thread can move, every step
uses up one of finitely many steps, and when `func` has returned the value
read is 42 and has been written; `func` does return having read 42 in the run
in which the worker thread, if any, runs first. -/
theorem C8_func_reads_42 (leftFirst : Bool) (option : String) (rt : Launch)
    (sched : List Tid) :
    ((run leftFirst option rt sched init).read = none ∨
      (run leftFirst option rt sched init).read = some 42) ∧
    (getAt leftFirst < (run leftFirst option rt sched init).mpc →
      (run leftFirst option rt sched init).read = some 42) ∧
    (∀ t, (task t).2 = 42) ∧
    (run leftFirst option rt sched init).raised = none ∧
    (run leftFirst option rt sched init).runs ≤ 1 ∧
    ((run leftFirst option rt sched init).mpc < 12 →
      ∃ t, (step leftFirst option rt t (run leftFirst option rt sched init)).isSome = true) ∧
    (∀ t s', step leftFirst option rt t (run leftFirst option rt sched init) = some s' →
      stepsLeft s' < stepsLeft (run leftFirst option rt sched init)) ∧
    ((run leftFirst option rt sched init).mpc = 12 →
      (run leftFirst option rt sched init).read = some 42 ∧
      (Tid.main, Item.int 42) ∈ (run leftFirst option rt sched init).out) ∧
    ((run leftFirst option rt ([.main] ++ List.replicate 6 .worker ++ List.replicate 11 .main)
      init).mpc = 12 ∧
     (run leftFirst option rt ([.main] ++ List.replicate 6 .worker ++ List.replicate 11 .main)
      init).read = some 42) := by
  have hfull := func_complete_run leftFirst option rt
  have hinv := func_inv_run leftFirst option rt sched init (func_inv_init _ _)
  have hprog := func_progress leftFirst option rt (run leftFirst option rt sched init) hinv
  have hdec := fun t s' => func_stepsLeft_step leftFirst option rt t
    (run leftFirst option rt sched init) s'
  generalize run leftFirst option rt sched init = s at *
  generalize (policyOf option).resolve rt = l at *
  have hg : getAt leftFirst ≤ 9 := by cases leftFirst <;> decide
  refine ⟨?_, fun hm => (hinv.after_get hm).2.1, fun t => rfl, hinv.raised, ?_, hprog, hdec, ?_,
    hfull⟩
  · by_cases hm : getAt leftFirst < s.mpc
    · exact Or.inr (hinv.after_get hm).2.1
    · exact Or.inl (hinv.before_get (by omega))
  · rw [hinv.runs_eq]
    by_cases hl : l = .deferred
    · have hst : s.started = false := by
        cases hh : s.started
        · rfl
        · exact absurd ((hinv.started_iff.mp hh).1.symm.trans hl) (by decide)
      rw [hinv.idle hst]
      have h0 : ¬ (1 ≤ 0) := by decide
      rw [if_neg h0]
      split <;> omega
    · have hn : ¬ (l = .deferred ∧ getAt leftFirst < s.mpc) := fun hc => hl hc.1
      rw [if_neg hn]
      split <;> omega
  · intro hm
    exact ⟨(hinv.after_get (by omega)).2.1, hinv.written (by omega)⟩

end LaunchOptions

namespace LaunchOptions.Main

theorem ptask_Inv_iff (a b : Int) (g : Nat) (s : State) : Inv a b g s ↔
    (s.raised = none ∧ s.mpc ≤ lastStep ∧ s.wpc ≤ 1 ∧ (s.mpc ≤ 2 → s.wpc = 0) ∧
     (s.wpc = 0 → s.value = none ∧ s.runs = 0) ∧
     (s.wpc = 1 → s.value = some (wrapInt (a * b)) ∧ s.runs = 1) ∧
     (s.mpc ≤ g → s.futValid = true ∧ s.read = none) ∧
     (g < s.mpc → s.read = some (wrapInt (a * b)) ∧ s.wpc = 1) ∧
     (lastStep ≤ s.mpc + 1 → (Tid.main, Item.int (wrapInt (a * b))) ∈ s.out)) := by
  constructor
  · rintro ⟨h1, h2, h3, h4, h5, h6, h7, h8, h9⟩
    exact ⟨h1, h2, h3, h4, h5, h6, h7, h8, h9⟩
  · rintro ⟨h1, h2, h3, h4, h5, h6, h7, h8, h9⟩
    exact ⟨h1, h2, h3, h4, h5, h6, h7, h8, h9⟩

theorem ptask_inv_init (a b : Int) (lf : Bool) : Inv a b (getAt lf) init := by
  rw [ptask_Inv_iff]
  simp [init, lastStep]

theorem ptask_inv_getStep (a b : Int) (lf : Bool) (s s' : State) (h : Inv a b (getAt lf) s)
    (hg : s.mpc = getAt lf) (hs : getStep s = some s') : Inv a b (getAt lf) s' := by
  have hg' : getAt lf + 3 ≤ lastStep := by cases lf <;> simp [getAt, lastStep]
  rw [ptask_Inv_iff] at h ⊢
  obtain ⟨h1, h2, h3, h4, h5, h6, h7, h8, h9⟩ := h
  generalize getAt lf = g at *
  generalize lastStep = e at *
  unfold getStep at hs
  have hv := (h7 (by omega)).1
  rw [hv] at hs
  simp only [if_true] at hs
  split at hs
  · cases hs
  · rename_i v hval
    cases hs
    dsimp only
    have hw : s.wpc = 1 := by
      by_contra hc
      have := (h5 (by omega)).1
      rw [this] at hval
      cases hval
    have hvv := (h6 hw).1
    rw [hvv] at hval
    cases hval
    refine ⟨h1, by omega, h3, by omega, h5, h6, fun hc => absurd hc (by omega),
      fun _ => ⟨rfl, hw⟩, fun hc => absurd hc (by omega)⟩

theorem ptask_inv_main (a b : Int) (lf : Bool) (s s' : State) (h : Inv a b (getAt lf) s)
    (hs : mainStep lf s = some s') : Inv a b (getAt lf) s' := by
  have hgdef : getAt lf = loopItems.length + 3 + (if lf then 1 else 0) := rfl
  have hedef : lastStep = loopItems.length + 7 := rfl
  unfold mainStep at hs
  split at hs
  · rename_i hpc
    cases hs
    rw [ptask_Inv_iff] at h ⊢
    obtain ⟨h1, h2, h3, h4, h5, h6, h7, h8, h9⟩ := h
    dsimp only
    exact ⟨h1, by omega, h3, fun _ => h4 (by omega), h5, h6,
      fun _ => h7 (by split at hgdef <;> omega), fun hc => absurd hc (by split at hgdef <;> omega),
      fun hc => absurd hc (by omega)⟩
  · split at hs
    · rename_i hpc0 hpc
      cases hs
      rw [ptask_Inv_iff] at h ⊢
      obtain ⟨h1, h2, h3, h4, h5, h6, h7, h8, h9⟩ := h
      dsimp only
      exact ⟨h1, by omega, h3, fun _ => h4 (by omega), h5, h6,
        fun _ => h7 (by split at hgdef <;> omega),
        fun hc => absurd hc (by split at hgdef <;> omega),
        fun hc => absurd hc (by omega)⟩
    · split at hs
      · rename_i hpc0 hpc1 hpc
        cases hs
        rw [ptask_Inv_iff] at h ⊢
        obtain ⟨h1, h2, h3, h4, h5, h6, h7, h8, h9⟩ := h
        dsimp only
        exact ⟨h1, by omega, h3, fun hc => absurd hc (by omega), h5, h6,
          fun _ => h7 (by split at hgdef <;> omega),
          fun hc => absurd hc (by split at hgdef <;> omega),
          fun hc => absurd hc (by omega)⟩
      · rename_i hpc0 hpc1 hpc2
        split at hs
        · rename_i i hi
          have hlt : s.mpc - 3 < loopItems.length := (List.getElem?_eq_some.mp hi).1
          cases hs
          rw [ptask_Inv_iff] at h ⊢
          obtain ⟨h1, h2, h3, h4, h5, h6, h7, h8, h9⟩ := h
          dsimp only
          exact ⟨h1, by omega, h3, fun hc => absurd hc (by omega), h5, h6,
            fun _ => h7 (by split at hgdef <;> omega),
            fun hc => absurd hc (by split at hgdef <;> omega),
            fun hc => absurd hc (by omega)⟩
        · rename_i hnone
          have hge : loopItems.length ≤ s.mpc - 3 := by
            by_contra hc
            rw [List.getElem?_eq_getElem (by omega)] at hnone
            cases hnone
          split at hs
          · rename_i hr
            cases lf
            · exact ptask_inv_getStep a b false s s' h (by rw [hgdef]; simp; omega) hs
            · simp only [if_true] at hs
              cases hs
              rw [ptask_Inv_iff] at h ⊢
              obtain ⟨h1, h2, h3, h4, h5, h6, h7, h8, h9⟩ := h
              simp only [if_true] at hgdef
              dsimp only
              exact ⟨h1, by omega, h3, fun hc => absurd hc (by omega), h5, h6,
                fun _ => h7 (by omega), fun hc => absurd hc (by omega),
                fun hc => absurd hc (by omega)⟩
          · rename_i hr
            cases lf
            · simp only [Bool.false_eq_true, if_false] at hs
              cases hs
              rw [ptask_Inv_iff] at h ⊢
              obtain ⟨h1, h2, h3, h4, h5, h6, h7, h8, h9⟩ := h
              simp only [Bool.false_eq_true, if_false] at hgdef
              dsimp only
              exact ⟨h1, by omega, h3, fun hc => absurd hc (by omega), h5, h6,
                fun hc => absurd hc (by omega), fun _ => h8 (by omega),
                fun hc => absurd hc (by omega)⟩
            · exact ptask_inv_getStep a b true s s' h (by rw [hgdef]; simp; omega) hs
          · rename_i hr
            rw [ptask_Inv_iff] at h ⊢
            obtain ⟨h1, h2, h3, h4, h5, h6, h7, h8, h9⟩ := h
            have hread := (h8 (by split at hgdef <;> omega)).1
            rw [hread] at hs
            cases hs
            dsimp only
            exact ⟨h1, by omega, h3, fun hc => absurd hc (by omega), h5, h6,
              fun hc => absurd hc (by split at hgdef <;> omega),
              fun _ => ⟨rfl, (h8 (by split at hgdef <;> omega)).2⟩,
              fun _ => List.mem_append_right _ (List.mem_singleton.mpr rfl)⟩
          · rename_i hr
            cases hs
            rw [ptask_Inv_iff] at h ⊢
            obtain ⟨h1, h2, h3, h4, h5, h6, h7, h8, h9⟩ := h
            dsimp only
            exact ⟨h1, by omega, h3, fun hc => absurd hc (by omega), h5, h6,
              fun hc => absurd hc (by split at hgdef <;> omega),
              fun _ => h8 (by split at hgdef <;> omega),
              fun _ => List.mem_append_left _ (h9 (by omega))⟩
          · cases hs

theorem ptask_inv_thr1 (a b : Int) (g : Nat) (s s' : State) (h : Inv a b g s)
    (hs : thr1 a b s = some s') : Inv a b g s' := by
  unfold thr1 at hs
  rw [ptask_Inv_iff] at h ⊢
  obtain ⟨h1, h2, h3, h4, h5, h6, h7, h8, h9⟩ := h
  split at hs
  · rename_i hc
    have hv := (h5 hc.2).1
    have hr := (h5 hc.2).2
    rw [hv] at hs
    cases hs
    dsimp only
    exact ⟨h1, h2, by omega, fun hm => absurd hm (by omega), fun hw => absurd hw (by omega),
      fun _ => ⟨rfl, by omega⟩, h7, fun hm => absurd (h8 hm).2 (by omega), h9⟩
  · cases hs

theorem ptask_getStep_progress (a b : Int) (g : Nat) (s : State) (h : Inv a b g s)
    (hg : s.mpc ≤ g) (h3 : 3 ≤ s.mpc) :
    (getStep s).isSome = true ∨ (thr1 a b s).isSome = true := by
  have hv := (h.before_get hg).1
  by_cases hw : s.wpc = 0
  · right
    have := (h.not_run hw).1
    simp [thr1, h3, hw, this]
  · left
    have hw1 : s.wpc = 1 := by have := h.wpc_le; omega
    have := (h.ran hw1).1
    simp [getStep, hv, this]

/-- While the main thread has not reached the end of line 220, some thread
can take a step. -/
theorem ptask_progress (a b : Int) (lf : Bool) (s : State) (h : Inv a b (getAt lf) s)
    (hm : s.mpc < lastStep) : ∃ t, (step lf a b t s).isSome = true := by
  have hr : s.raised.isSome = false := by rw [h.raised]; rfl
  have hgdef : getAt lf = loopItems.length + 3 + (if lf then 1 else 0) := rfl
  have hedef : lastStep = loopItems.length + 7 := rfl
  have key : (mainStep lf s).isSome = true ∨ (thr1 a b s).isSome = true := by
    unfold mainStep
    split
    · left; rfl
    · split
      · left; rfl
      · split
        · left; rfl
        · rename_i hpc0 hpc1 hpc2
          split
          · left; rfl
          · rename_i hnone
            have hge : loopItems.length ≤ s.mpc - 3 := by
              by_contra hc
              rw [List.getElem?_eq_getElem (by omega)] at hnone
              cases hnone
            split
            · rename_i hr0
              cases lf
              · simpa using ptask_getStep_progress a b _ s h (by rw [hgdef]; simp; omega) (by omega)
              · left; rfl
            · rename_i hr1
              cases lf
              · left; rfl
              · simpa using ptask_getStep_progress a b _ s h (by rw [hgdef]; simp; omega) (by omega)
            · rename_i hr2
              have := (h.after_get (by rw [hgdef]; split <;> omega)).1
              rw [this]
              left; rfl
            · left; rfl
            · rename_i n h0 h1 h2 h3
              exfalso
              have e0 : s.mpc - (loopItems.length + 3) ≠ 0 := fun hc => h0 hc
              have e1 : s.mpc - (loopItems.length + 3) ≠ 1 := fun hc => h1 hc
              have e2 : s.mpc - (loopItems.length + 3) ≠ 2 := fun hc => h2 hc
              have e3 : s.mpc - (loopItems.length + 3) ≠ 3 := fun hc => h3 hc
              omega
  rcases key with k | k
  · exact ⟨.main, by simpa [step, hr] using k⟩
  · exact ⟨.worker, by simpa [step, hr] using k⟩

/-- Every step uses up one of the steps the threads have left. -/
theorem ptask_stepsLeft_step (a b : Int) (lf : Bool) (t : Tid) (s s' : State)
    (hs : step lf a b t s = some s') : stepsLeft s' < stepsLeft s := by
  have hedef : lastStep = loopItems.length + 7 := rfl
  unfold step at hs
  unfold stepsLeft
  split at hs
  · cases hs
  · cases t
    · simp only [mainStep] at hs
      split at hs
      · cases hs; dsimp only; omega
      · split at hs
        · cases hs; dsimp only; omega
        · split at hs
          · cases hs; dsimp only; omega
          · split at hs
            · rename_i i hi
              have hlt : s.mpc - 3 < loopItems.length := (List.getElem?_eq_some.mp hi).1
              cases hs; dsimp only; omega
            · split at hs
              · cases lf
                · simp only [Bool.false_eq_true, if_false, getStep] at hs
                  split at hs
                  · split at hs
                    · cases hs
                    · cases hs; dsimp only; omega
                  · cases hs; dsimp only; omega
                · simp only [if_true] at hs
                  cases hs; dsimp only; omega
              · cases lf
                · simp only [Bool.false_eq_true, if_false] at hs
                  cases hs; dsimp only; omega
                · simp only [if_true, getStep] at hs
                  split at hs
                  · split at hs
                    · cases hs
                    · cases hs; dsimp only; omega
                  · cases hs; dsimp only; omega
              · split at hs
                · cases hs; dsimp only; omega
                · cases hs
              · cases hs; dsimp only; omega
              · cases hs
    · simp only [thr1] at hs
      split at hs
      · split at hs <;> (cases hs; dsimp only; omega)
      · cases hs

theorem ptask_inv_step (a b : Int) (lf : Bool) (t : Tid) (s s' : State)
    (h : Inv a b (getAt lf) s) (hs : step lf a b t s = some s') :
    Inv a b (getAt lf) s' := by
  unfold step at hs
  split at hs
  · cases hs
  · cases t
    · exact ptask_inv_main a b lf s s' h hs
    · exact ptask_inv_thr1 a b _ s s' h hs

theorem ptask_inv_run (a b : Int) (lf : Bool) (sched : List Tid) (s : State)
    (h : Inv a b (getAt lf) s) : Inv a b (getAt lf) (run lf a b sched s) := by
  induction sched generalizing s with
  | nil => exact h
  | cons t ts ih =>
    rw [run]
    split
    · rename_i s' hs
      exact ih s' (ptask_inv_step a b lf t s s' h hs)
    · exact ih s h

/-- C6.  For `int` values `a`, `b` whose product is an `int`, in the state
reached under any interleaving of the main thread (lines 207 to 220) and the
thread that invokes the packaged task with `(a, b)`: the value `result.get()`
returned, if it has returned, is `a * b`; the lambda has run at most once, and
exactly once when the value has been read; no exception has been raised; as
long as the main thread has not finished line 220 some thread can move and
every step uses up one of finitely many steps; when it has finished, the value
read and written is `a * b` and the lambda has run exactly once. -/
theorem C6_packaged_task_product (leftFirst : Bool) (a b : Int) (ha : inInt a)
    (hb : inInt b) (hab : inInt (a * b)) (sched : List Tid) :
    ((run leftFirst a b sched init).read = none ∨
      (run leftFirst a b sched init).read = some (a * b)) ∧
    (getAt leftFirst < (run leftFirst a b sched init).mpc →
      (run leftFirst a b sched init).read = some (a * b)) ∧
    (run leftFirst a b sched init).runs ≤ 1 ∧
    ((run leftFirst a b sched init).read ≠ none → (run leftFirst a b sched init).runs = 1) ∧
    (run leftFirst a b sched init).raised = none ∧
    ((run leftFirst a b sched init).mpc < lastStep →
      ∃ t, (step leftFirst a b t (run leftFirst a b sched init)).isSome = true) ∧
    (∀ t s', step leftFirst a b t (run leftFirst a b sched init) = some s' →
      stepsLeft s' < stepsLeft (run leftFirst a b sched init)) ∧
    ((run leftFirst a b sched init).mpc = lastStep →
      (run leftFirst a b sched init).read = some (a * b) ∧
      (run leftFirst a b sched init).runs = 1 ∧
      (Tid.main, Item.int (a * b)) ∈ (run leftFirst a b sched init).out) := by
  have _ := ha
  have _ := hb
  have hw := wrapInt_of_inInt (a * b) hab
  have hinv := ptask_inv_run a b leftFirst sched init (ptask_inv_init a b leftFirst)
  have hprog := ptask_progress a b leftFirst (run leftFirst a b sched init) hinv
  have hdec := fun t s' => ptask_stepsLeft_step a b leftFirst t (run leftFirst a b sched init) s'
  generalize run leftFirst a b sched init = s at *
  rw [ptask_Inv_iff, hw] at hinv
  obtain ⟨h1, h2, h3, h4, h5, h6, h7, h8, h9⟩ := hinv
  have hg : getAt leftFirst + 3 ≤ lastStep := by cases leftFirst <;> simp [getAt, lastStep]
  have hruns : s.runs ≤ 1 := by
    by_cases hc : s.wpc = 0
    · rw [(h5 hc).2]; omega
    · rw [(h6 (by omega)).2]
  refine ⟨?_, fun hm => (h8 hm).1, hruns, ?_, h1, hprog, hdec, ?_⟩
  · by_cases hm : getAt leftFirst < s.mpc
    · exact Or.inr (h8 hm).1
    · exact Or.inl (h7 (by omega)).2
  · intro hread
    by_cases hm : getAt leftFirst < s.mpc
    · exact (h6 (h8 hm).2).2
    · exact absurd (h7 (by omega)).2 hread
  · intro hm
    have h8' := h8 (by omega)
    exact ⟨h8'.1, (h6 h8'.2).2, h9 (by omega)⟩

/-- C6 at the arguments of the source, `thr1(std::move(p_task), 4, 6)`, for the
interleaving in which `thr1` runs as soon as it is started: the value read is
24 and the lambda has run once. -/
theorem C6_packaged_task_product_witness :
    inInt 4 ∧ inInt 6 ∧ inInt (4 * 6) ∧
    (run true 4 6 ([.main, .main, .main, .worker] ++ List.replicate 26 .main) init).read
      = some 24 ∧
    (run true 4 6 ([.main, .main, .main, .worker] ++ List.replicate 26 .main) init).runs
      = 1 :=
  ⟨by decide, by decide, by decide,
    ((C6_packaged_task_product true 4 6 (by decide) (by decide) (by decide)
      ([.main, .main, .main, .worker] ++ List.replicate 26 .main)).2.2.2.2.2.2.2
        (by decide)).1,
    ((C6_packaged_task_product true 4 6 (by decide) (by decide) (by decide)
      ([.main, .main, .main, .worker] ++ List.replicate 26 .main)).2.2.2.2.2.2.2
        (by decide)).2.1⟩

end LaunchOptions.Main

/-! ## The atomic operations demo -/

namespace AtomicOperations

theorem spin_inv_started (k : Nat) : Inv (startedState k) := by
  constructor
  · intro i j hi
    exact absurd hi.1 (by simp [startedState])
  · intro i hi
    exact absurd hi.1 (by simp [startedState])
  · intro h
    simp [startedState] at h
  · intro i _
    rfl
  · intro i
    simp [startedState]

theorem spin_inv_main (s s' : State) (h : Inv s) (hs : main s = some s') : Inv s' := by
  obtain ⟨h1, h2, h3, h4, h5⟩ := h
  unfold main at hs
  split at hs
  · cases hs
    exact ⟨h1, h2, h3, fun i hi => h4 i (by dsimp only at hi; omega), h5⟩
  · split at hs
    · split at hs
      · cases hs
        exact ⟨h1, h2, h3, h4, h5⟩
      · cases hs
    · cases hs

theorem spin_inv_advance (s : State) (n p : Nat) (h : Inv s) (hp : holdsLock (s.pc n))
    (hp' : holdsLock p) (o : List (Nat × Item)) :
    Inv { s with out := o, pc := Function.update s.pc n p } := by
  obtain ⟨h1, h2, h3, h4, h5⟩ := h
  have hupd : ∀ i, holdsLock (Function.update s.pc n p i) → holdsLock (s.pc i) := by
    intro i hi
    by_cases hin : i = n
    · rw [hin]; exact hp
    · rwa [Function.update_noteq hin] at hi
  refine ⟨fun i j hi hj => h1 i j (hupd i hi) (hupd j hj), fun i hi => h2 i (hupd i hi),
    fun _ => ⟨n, by dsimp only; rw [Function.update_same]; exact hp'⟩, ?_, ?_⟩
  · intro i hi
    dsimp only at hi ⊢
    by_cases hin : i = n
    · subst hin
      have := h4 i hi
      unfold holdsLock at hp
      omega
    · rw [Function.update_noteq hin]
      exact h4 i hi
  · intro i
    dsimp only
    by_cases hin : i = n
    · rw [hin, Function.update_same]
      unfold holdsLock at hp'
      omega
    · rw [Function.update_noteq hin]
      exact h5 i

theorem spin_inv_task (n : Nat) (s s' : State) (h : Inv s) (hs : task n s = some s') :
    Inv s' := by
  unfold task at hs
  split at hs
  · rename_i hn
    split at hs
    · rename_i hpc
      dsimp only at hs
      split at hs
      · rename_i hf
        cases hs
        obtain ⟨h1, h2, h3, h4, h5⟩ := h
        exact ⟨h1, fun _ _ => rfl, fun _ => h3 hf, h4, h5⟩
      · rename_i hf
        cases hs
        obtain ⟨h1, h2, h3, h4, h5⟩ := h
        have hfree : ∀ i, ¬ holdsLock (s.pc i) := fun i hi => hf (h2 i hi)
        have hupd : ∀ i, holdsLock (Function.update s.pc n 1 i) → i = n := by
          intro i hi
          by_contra hin
          rw [Function.update_noteq hin] at hi
          exact hfree i hi
        refine ⟨fun i j hi hj => (hupd i hi).trans (hupd j hj).symm, fun _ _ => rfl,
          fun _ => ⟨n, by dsimp only; rw [Function.update_same]; decide⟩, ?_, ?_⟩
        · intro i hi
          dsimp only at hi ⊢
          have hin : i ≠ n := by omega
          rw [Function.update_noteq hin]
          exact h4 i hi
        · intro i
          dsimp only
          by_cases hin : i = n
          · rw [hin, Function.update_same]; omega
          · rw [Function.update_noteq hin]
            exact h5 i
    · rename_i hpc
      cases hs
      exact spin_inv_advance s n 2 h (by rw [hpc]; decide) (by decide) s.out
    · rename_i hpc
      cases hs
      exact spin_inv_advance s n 3 h (by rw [hpc]; decide) (by decide) _
    · rename_i hpc
      cases hs
      exact spin_inv_advance s n 4 h (by rw [hpc]; decide) (by decide) _
    · rename_i hpc
      cases hs
      exact spin_inv_advance s n 5 h (by rw [hpc]; decide) (by decide) _
    · rename_i hpc
      cases hs
      obtain ⟨h1, h2, h3, h4, h5⟩ := h
      have hn5 : holdsLock (s.pc n) := by rw [hpc]; decide
      have hupd : ∀ i, ¬ holdsLock (Function.update s.pc n 6 i) := by
        intro i hi
        by_cases hin : i = n
        · rw [hin, Function.update_same] at hi
          exact absurd hi.2 (by decide)
        · rw [Function.update_noteq hin] at hi
          exact hin (h1 i n hi hn5)
      refine ⟨fun i j hi _ => absurd hi (hupd i), fun i hi => absurd hi (hupd i),
        fun hf => by simp at hf, ?_, ?_⟩
      · intro i hi
        dsimp only at hi ⊢
        have hin : i ≠ n := by omega
        rw [Function.update_noteq hin]
        exact h4 i hi
      · intro i
        dsimp only
        by_cases hin : i = n
        · rw [hin, Function.update_same]
        · rw [Function.update_noteq hin]
          exact h5 i
    · cases hs
  · cases hs

theorem spin_inv_step (t : Tid) (s s' : State) (h : Inv s) (hs : step t s = some s') :
    Inv s' := by
  cases t
  · exact spin_inv_main s s' h hs
  · exact spin_inv_task _ s s' h hs

theorem spin_inv_run (sched : List Tid) (s : State) (h : Inv s) : Inv (run sched s) := by
  induction sched generalizing s with
  | nil => exact h
  | cons t ts ih =>
    rw [run]
    split
    · rename_i s' hs
      exact ih s' (spin_inv_step t s s' h hs)
    · exact ih s h

/-- The state after `main` has started all 11 threads is `allStarted`. -/
theorem run_main_allStarted : run (List.replicate 11 .main) init = allStarted := by
  rfl

/-- C9.  In every state the spin-lock program reaches under any interleaving,
from the state in which `main` is entered as well as from the state in which
the flag is clear and all 11 threads are before the loop, at most one thread
has left the loop of line 271 without having executed `clear()`; in
particular at most one thread is inside the critical section, and the flag is
set while a thread is.  For instance, when the threads of `task(3)` and
`task(5)` take two steps each in turn, the first is inside the critical
section and the second is still in the loop. -/
theorem C9_mutual_exclusion (sched : List Tid) (i j : Nat) :
    (inCritical ((run sched allStarted).pc i) → inCritical ((run sched allStarted).pc j) →
      i = j) ∧
    (inCritical ((run sched init).pc i) → inCritical ((run sched init).pc j) → i = j) ∧
    (holdsLock ((run sched allStarted).pc i) → holdsLock ((run sched allStarted).pc j) →
      i = j) ∧
    (inCritical ((run sched allStarted).pc i) → (run sched allStarted).lock_cout = true) ∧
    run (List.replicate 11 .main) init = allStarted ∧
    (inCritical ((run [.task 3, .task 5, .task 3, .task 5] allStarted).pc 3) ∧
      (run [.task 3, .task 5, .task 3, .task 5] allStarted).pc 5 = 0) := by
  have ha := spin_inv_run sched allStarted (spin_inv_started 11)
  have hi := spin_inv_run sched init (spin_inv_started 0)
  have hc : ∀ p, inCritical p → holdsLock p := fun p hp => ⟨hp.1, by have := hp.2; omega⟩
  exact ⟨fun h1 h2 => ha.unique i j (hc _ h1) (hc _ h2),
    fun h1 h2 => hi.unique i j (hc _ h1) (hc _ h2),
    fun h1 h2 => ha.unique i j h1 h2, fun h1 => ha.locked i (hc _ h1), rfl, by decide⟩

end AtomicOperations

namespace AsyncProgramming

/-- The two steps of the thread running `produce` amount to one call of
`produce` on the promise. -/
theorem produce_steps_eq_call (a b : Int) (s : State) (h0 : s.mpc ≠ 0) (hr : s.raised = none) :
    (run a b [.producer, .producer] { s with ppc := 0 }).promise
      = (produceCall s.promise a b).2 ∧
    (run a b [.producer, .producer] { s with ppc := 0 }).raised
      = (produceCall s.promise a b).1 := by
  rcases hv : s.promise.value with _ | v <;>
    simp [run, step, produce, produceCall, Promise.set_value, hr, h0, hv]

/-- C11.  For all `a`, `b`, `c`, `d`: a call `produce(prom, a, b)` on a promise
that holds no value resolves it with `a + b` (as an `int`; the sum itself when
it fits); a second call `produce(prom, c, d)` on the same promise fails with
`future_error(promise_already_satisfied)` and leaves the shared state, with
the stored value `a + b`, as it was.  The same holds for a second run of the
thread of `produce` in the program of lines 295 to 323. -/
theorem C11_double_resolution (retrieved : Bool) (a b c d : Int) :
    produceCall ⟨none, retrieved⟩ a b = (none, ⟨some (wrapInt (a + b)), retrieved⟩) ∧
    produceCall (produceCall ⟨none, retrieved⟩ a b).2 c d
      = (some .promise_already_satisfied, ⟨some (wrapInt (a + b)), retrieved⟩) ∧
    (inInt (a + b) → (produceCall (produceCall ⟨none, retrieved⟩ a b).2 c d).2.value
      = some (a + b)) ∧
    (∀ s : State, s.mpc ≠ 0 → s.raised = none → s.promise.value = some (wrapInt (a + b)) →
      (run c d [.producer, .producer] { s with ppc := 0 }).promise = s.promise ∧
      (run c d [.producer, .producer] { s with ppc := 0 }).raised
        = some .promise_already_satisfied) := by
  have h1 : produceCall ⟨none, retrieved⟩ a b = (none, ⟨some (wrapInt (a + b)), retrieved⟩) := by
    simp [produceCall, Promise.set_value]
  have h2 : ∀ p : Promise, p.value = some (wrapInt (a + b)) →
      produceCall p c d = (some .promise_already_satisfied, p) := by
    intro p hp
    simp [produceCall, Promise.set_value, hp]
  refine ⟨h1, ?_, ?_, ?_⟩
  · rw [h1]
    exact h2 _ rfl
  · intro hab
    rw [h1, h2 _ rfl, wrapInt_of_inInt _ hab]
  · intro s h0 hr hv
    have := produce_steps_eq_call c d s h0 hr
    rw [h2 s.promise hv] at this
    exact this

end AsyncProgramming

namespace LaunchOptions

theorem func1_inv_init : InvFunc1 init := by
  constructor <;> simp [init, func1Items, workerItems]

theorem func1_inv_main (s s' : State) (h : InvFunc1 s) (hs : func1 s = some s') :
    InvFunc1 s' := by
  obtain ⟨h1, h2, h3, h4, h5, h6, h7, h8, h9, h10, h11⟩ := h
  have hst : s.mpc ≤ 2 → s.wpc = 0 := by
    intro hm
    apply h5
    cases hh : s.started
    · rfl
    · have := h4.mp hh
      omega
  unfold func1 at hs
  split at hs
  · rename_i hpc
    cases hs
    have hw := hst (by omega)
    refine ⟨h1, by simp, h3, ?_, h5, fun _ => h6 (by omega), fun hc => absurd hc (by simp),
      fun hc => absurd hc (by simp), fun hc => absurd hc (by simp), h10, ?_⟩
    · dsimp only
      rw [h4]
      omega
    · dsimp only
      rw [h11, hpc, hw]
      rfl
  · rename_i hpc
    cases hs
    have hw := hst (by omega)
    refine ⟨h1, by simp, h3, ?_, h5, fun _ => h6 (by omega), fun hc => absurd hc (by simp),
      fun hc => absurd hc (by simp), fun hc => absurd hc (by simp), h10, ?_⟩
    · dsimp only
      rw [h4]
      omega
    · dsimp only
      rw [h11, hpc, hw]
      rfl
  · rename_i hpc
    cases hs
    have hw := hst (by omega)
    refine ⟨h1, by simp, h3, by simp, fun hc => absurd hc (by simp),
      fun hc => absurd hc (by simp), fun _ _ => rfl,
      fun _ hc => absurd hc (by dsimp only; omega), fun hc => absurd hc (by simp), h10, ?_⟩
    dsimp only
    rw [h11, hpc, hw]
    rfl
  · rename_i hpc
    have hw6 : s.wpc = 6 := by
      by_contra hc
      have := h7 hpc (by omega)
      rw [this] at hs
      cases hs
    have hc := h8 hpc hw6
    rw [hc] at hs
    cases hs
    refine ⟨h1, by simp, h3, ?_, h5, fun hc => absurd hc (by simp), fun hc => absurd hc (by simp),
      fun hc => absurd hc (by simp), fun _ => hw6, h10, ?_⟩
    · dsimp only
      rw [h4]
      omega
    · dsimp only
      rw [h11, hpc]
      rfl
  · cases hs

theorem func1_inv_worker (s s' : State) (h : InvFunc1 s) (hs : worker s = some s') :
    InvFunc1 s' := by
  obtain ⟨h1, h2, h3, h4, h5, h6, h7, h8, h9, h10, h11⟩ := h
  have hlen : (task .worker).1.length = 5 := rfl
  unfold worker at hs
  split at hs
  · rename_i hst
    have hm := h4.mp hst
    have hm3 : s.wpc < 6 → s.mpc = 3 := by
      intro hw
      by_contra hc
      have := h9 (by omega)
      omega
    split at hs
    · rename_i i hi
      have hlt : s.wpc < 5 := by
        have := (List.getElem?_eq_some.mp hi).1
        omega
      cases hs
      refine ⟨h1, h2, ?_, h4, ?_, h6, ?_, ?_, ?_, h10, ?_⟩
      · dsimp only; omega
      · intro hf
        dsimp only at hf
        rw [hst] at hf
        cases hf
      · intro a _
        exact h7 a (by omega)
      · intro _ hc
        dsimp only at hc
        omega
      · intro hc
        dsimp only at hc
        have := hm3 (by omega)
        omega
      · dsimp only
        rw [h11, List.append_assoc]
        congr 1
        have hi' : workerItems[s.wpc]? = some (Tid.worker, i) := by
          simp only [workerItems, List.getElem?_map, hi, Option.map_some']
        rw [List.take_succ, hi']
        rfl
    · split at hs
      · rename_i hw
        rw [hlen] at hw
        cases hs
        refine ⟨h1, h2, ?_, h4, ?_, ?_, ?_, ?_, ?_, h10, ?_⟩
        · dsimp only; omega
        · intro hf
          dsimp only at hf
          rw [hst] at hf
          cases hf
        · intro hc
          dsimp only at hc
          have := hm3 (by omega)
          omega
        · intro _ hc
          dsimp only at hc
          omega
        · intro _ _
          rfl
        · intro hc
          dsimp only at hc
          have := hm3 (by omega)
          omega
        · dsimp only
          rw [h11, hw]
          rfl
      · cases hs
  · cases hs

theorem func1_inv_step (t : Tid) (s s' : State) (h : InvFunc1 s)
    (hs : stepFunc1 t s = some s') : InvFunc1 s' := by
  unfold stepFunc1 at hs
  split at hs
  · cases hs
  · cases t
    · exact func1_inv_main s s' h hs
    · exact func1_inv_worker s s' h hs

theorem func1_inv_run (sched : List Tid) (s : State) (h : InvFunc1 s) :
    InvFunc1 (runFunc1 sched s) := by
  induction sched generalizing s with
  | nil => exact h
  | cons t ts ih =>
    rw [runFunc1]
    split
    · rename_i s' hs
      exact ih s' (func1_inv_step t s s' h hs)
    · exact ih s h

end LaunchOptions

namespace LaunchOptions

/-- While the calling thread has not left `func1`, some thread can take a
step. -/
theorem func1_progress (s : State) (h : InvFunc1 s) (hm : s.mpc < 4) :
    ∃ t, (stepFunc1 t s).isSome = true := by
  have hr : s.raised.isSome = false := by rw [h.raised]; rfl
  obtain ⟨m, hmm⟩ : ∃ m, s.mpc = m := ⟨_, rfl⟩
  have hm' : m = 0 ∨ m = 1 ∨ m = 2 ∨ m = 3 := by omega
  rcases hm' with rfl | rfl | rfl | rfl
  · exact ⟨.main, by simp [stepFunc1, hr, func1, hmm]⟩
  · exact ⟨.main, by simp [stepFunc1, hr, func1, hmm]⟩
  · exact ⟨.main, by simp [stepFunc1, hr, func1, hmm]⟩
  · by_cases hw : s.wpc = 6
    · have hc := h.cell_ready hmm hw
      exact ⟨.main, by simp [stepFunc1, hr, func1, hmm, hc]⟩
    · have hst : s.started = true := h.started_iff.mpr (by omega)
      have hle := h.wpc_le
      refine ⟨.worker, ?_⟩
      by_cases hw5 : s.wpc = 5
      · simp [stepFunc1, hr, worker, hst, hw5, task]
      · have hlt : s.wpc < (task .worker).1.length := by
          have : (task .worker).1.length = 5 := rfl
          omega
        simp only [stepFunc1, hr, worker, hst, if_true, List.getElem?_eq_getElem hlt]
        rfl

/-- Every step uses up one of the steps the threads have left in `func1`. -/
theorem func1_stepsLeft_step (t : Tid) (s s' : State) (hs : stepFunc1 t s = some s') :
    stepsLeftFunc1 s' < stepsLeftFunc1 s := by
  unfold stepFunc1 at hs
  unfold stepsLeftFunc1
  split at hs
  · cases hs
  · cases t
    · simp only [func1] at hs
      split at hs
      · cases hs; dsimp only; omega
      · cases hs; dsimp only; omega
      · cases hs; dsimp only; omega
      · split at hs
        · cases hs
        · cases hs; dsimp only; omega
      · cases hs
    · simp only [worker] at hs
      have hlen : (task .worker).1.length = 5 := rfl
      split at hs
      · split at hs
        · rename_i i hi
          have := (List.getElem?_eq_some.mp hi).1
          cases hs; dsimp only; omega
        · split at hs
          · cases hs; dsimp only; omega
          · cases hs
      · cases hs

/-- C12.  In a call of `func1`, under any schedule:
* what has been written is what the calling thread has written of
  "Calling async" followed by what the worker thread has written of `task`,
  an initial part of `func1Trace`;
* at the end of the scope of `result` the calling thread cannot move while
  `task` has not finished;
* when `func1` has returned, `task` has finished and all of `func1Trace` is
  written, with "Returning from task()" once, after "Calling async";
* the result is never read;
* as long as `func1` has not returned some thread can move, every step uses up
  one of finitely many steps, and `func1` does return in the run in which the
  worker thread runs as soon as it is started. -/
theorem C12_implicit_join (sched : List Tid) :
    (runFunc1 sched init).out
      = func1Items.take (runFunc1 sched init).mpc
        ++ workerItems.take (runFunc1 sched init).wpc ∧
    (runFunc1 sched init).out <+: func1Trace ∧
    ((runFunc1 sched init).mpc = 3 → (runFunc1 sched init).wpc < 6 →
      func1 (runFunc1 sched init) = none) ∧
    ((runFunc1 sched init).mpc = 4 →
      (runFunc1 sched init).wpc = 6 ∧ (runFunc1 sched init).out = func1Trace) ∧
    func1Trace.count (.worker, .str "Returning from task()") = 1 ∧
    func1Trace.indexOf (.main, .str "Calling async")
      < func1Trace.indexOf (.worker, .str "Returning from task()") ∧
    (runFunc1 sched init).read = none ∧
    ((runFunc1 sched init).mpc < 4 →
      ∃ t, (stepFunc1 t (runFunc1 sched init)).isSome = true) ∧
    (∀ t s', stepFunc1 t (runFunc1 sched init) = some s' →
      stepsLeftFunc1 s' < stepsLeftFunc1 (runFunc1 sched init)) ∧
    (runFunc1 ([.main, .main, .main] ++ List.replicate 6 .worker ++ [.main]) init).mpc = 4 := by
  have hinv := func1_inv_run sched init func1_inv_init
  have hprog := func1_progress (runFunc1 sched init) hinv
  have hdec := fun t s' => func1_stepsLeft_step t (runFunc1 sched init) s'
  generalize runFunc1 sched init = s at *
  obtain ⟨h1, h2, h3, h4, h5, h6, h7, h8, h9, h10, h11⟩ := hinv
  refine ⟨h11, ?_, ?_, ?_, by decide, by decide, h10, hprog, hdec, by decide⟩
  · rw [h11]
    by_cases hw : s.wpc = 0
    · rw [hw]
      simp only [List.take_zero, List.append_nil]
      exact (List.take_prefix _ _).trans (List.prefix_append _ _)
    · have hst : s.started = true := by
        cases hh : s.started
        · exact absurd (h5 hh) hw
        · rfl
      have hm := h4.mp hst
      have hfull : func1Items.take s.mpc = func1Items := by
        apply List.take_of_length_le
        have : func1Items.length = 2 := rfl
        omega
      rw [hfull]
      exact (List.prefix_append_right_inj _).mpr (List.take_prefix _ _)
  · intro hm hw
    have hc := h7 hm hw
    simp [func1, hm, hc]
  · intro hm
    have hw := h9 hm
    refine ⟨hw, ?_⟩
    rw [h11, hm, hw]
    rfl

end LaunchOptions

namespace AtomicOperations

/-- A step of the program with `task_m` is a step of the program with `task`;
where a thread of the former is blocked, the thread of the latter is blocked,
not started or finished as well, or spins without changing the state. -/
theorem mutex_step_sim (t : Tid) (m : StateM) :
    (∀ m', stepM t m = some m' → step t m.toSpin = some m'.toSpin) ∧
    (stepM t m = none → step t m.toSpin = none ∨ step t m.toSpin = some m.toSpin) := by
  cases t with
  | main =>
    constructor
    · intro m' hs
      simp only [stepM, mainM] at hs
      simp only [step, main, StateM.toSpin]
      split at hs
      · rename_i h1
        cases hs
        simp [h1]
      · rename_i h1
        split at hs
        · rename_i h2
          split at hs
          · rename_i h3
            cases hs
            simp [h1, h2, h3]
          · cases hs
        · cases hs
    · intro hs
      left
      simp only [stepM, mainM] at hs
      simp only [step, main, StateM.toSpin]
      split at hs
      · cases hs
      · rename_i h1
        split at hs
        · rename_i h2
          split at hs
          · cases hs
          · rename_i h3
            simp [h1, h2, h3]
        · rename_i h2
          simp [h1, h2]
  | task n =>
    constructor
    · intro m' hs
      simp only [stepM, task_m] at hs
      simp only [step, task, StateM.toSpin]
      split at hs
      · rename_i hn
        simp only [hn, if_true]
        split at hs
        · rename_i hpc
          split at hs
          · cases hs
          · rename_i hf
            cases hs
            simp [hpc, hf]
        all_goals first
          | (rename_i hpc; cases hs; simp [hpc])
          | (rename_i h0 h1 h2 h3 h4 h5; cases hs)
      · cases hs
    · intro hs
      simp only [stepM, task_m] at hs
      simp only [step, task, StateM.toSpin]
      split at hs
      · rename_i hn
        simp only [hn, if_true]
        split at hs
        · rename_i hpc
          split at hs
          · rename_i hf
            right
            simp [hpc, hf]
          · cases hs
        · cases hs
        · cases hs
        · cases hs
        · cases hs
        · cases hs
        · rename_i h0 h1 h2 h3 h4 h5
          left
          rfl
      · rename_i hn
        left
        simp [hn]

theorem runM_toSpin (sched : List Tid) (m : StateM) :
    (runM sched m).toSpin = run sched m.toSpin := by
  induction sched generalizing m with
  | nil => rfl
  | cons t ts ih =>
    rw [runM, run]
    have hsim := mutex_step_sim t m
    split
    · rename_i m' hs
      rw [hsim.1 m' hs]
      exact ih m'
    · rename_i hs
      rcases hsim.2 hs with h | h
      · rw [h]
        exact ih m
      · rw [h]
        exact ih m

/-- A call `task(n)` running alone: it writes its line and leaves the flag
clear. -/
theorem task_alone (n : Nat) :
    (run (List.replicate 6 (.task n)) (startedState (n + 1))).out = line n ∧
    (run (List.replicate 6 (.task n)) (startedState (n + 1))).lock_cout = false ∧
    (run (List.replicate 6 (.task n)) (startedState (n + 1))).pc n = 6 := by
  simp [List.replicate, run, step, task, startedState, line]

/-- A call `task_m(n)` running alone: it writes its line and leaves the mutex
unlocked. -/
theorem task_m_alone (n : Nat) :
    (runM (List.replicate 6 (.task n)) (startedStateM (n + 1))).out = line n ∧
    (runM (List.replicate 6 (.task n)) (startedStateM (n + 1))).mutex = false ∧
    (runM (List.replicate 6 (.task n)) (startedStateM (n + 1))).pc n = 6 := by
  simp [List.replicate, runM, stepM, task_m, startedStateM, line]

/-- The step with which `task(n)` returns leaves the flag clear. -/
theorem task_return_clear (n : Nat) (s s' : State) (hs : task n s = some s')
    (h6 : s'.pc n = 6) : s'.lock_cout = false := by
  unfold task at hs
  split at hs
  · split at hs
    · dsimp only at hs
      split at hs
      · cases hs
        rename_i hpc _
        rw [hpc] at h6
        cases h6
      · cases hs
        simp at h6
    · cases hs; simp at h6
    · cases hs; simp at h6
    · cases hs; simp at h6
    · cases hs; simp at h6
    · cases hs; rfl
    · cases hs
  · cases hs

/-- The step with which `task_m(n)` returns leaves the mutex unlocked. -/
theorem task_m_return_unlocked (n : Nat) (s s' : StateM) (hs : task_m n s = some s')
    (h6 : s'.pc n = 6) : s'.mutex = false := by
  unfold task_m at hs
  split at hs
  · split at hs
    · split at hs
      · cases hs
      · cases hs
        simp at h6
    · cases hs; simp at h6
    · cases hs; simp at h6
    · cases hs; simp at h6
    · cases hs; simp at h6
    · cases hs; rfl
    · cases hs
  · cases hs

end AtomicOperations

namespace AtomicOperations

/-- A step of thread `n` that writes nothing and neither enters nor leaves the
writing of its line keeps the output made of whole lines. -/
theorem lines_move (s : State) (n p : Nat) (f : Bool) (hL : LinesInv s)
    (h3 : s.pc n ≠ 3) (h4 : s.pc n ≠ 4) (p3 : p ≠ 3) (p4 : p ≠ 4)
    (h5 : 5 ≤ p ↔ 5 ≤ s.pc n) :
    LinesInv { s with lock_cout := f, pc := Function.update s.pc n p } := by
  obtain ⟨order, cur, hnd, hmem, hout, hc3, hc4, hc0⟩ := hL
  have hupd : ∀ h q, q ≠ p → Function.update s.pc n p h = q → s.pc h = q := by
    intro h q hq hh
    by_cases hn : h = n
    · rw [hn, Function.update_same] at hh
      exact absurd hh.symm hq
    · rwa [Function.update_noteq hn] at hh
  refine ⟨order, cur, hnd, ?_, hout, ?_, ?_, ?_⟩
  · intro m
    dsimp only
    by_cases hn : m = n
    · rw [hn, Function.update_same, hmem n]
      exact h5.symm
    · rw [Function.update_noteq hn]
      exact hmem m
  · intro h hh
    exact hc3 h (hupd h 3 (Ne.symm p3) hh)
  · intro h hh
    exact hc4 h (hupd h 4 (Ne.symm p4) hh)
  · intro hall
    apply hc0
    intro h
    by_cases hn : h = n
    · rw [hn]
      exact ⟨h3, h4⟩
    · have := hall h
      dsimp only at this
      rwa [Function.update_noteq hn] at this

theorem spin_lines_task (n : Nat) (s s' : State) (hI : Inv s) (hL : LinesInv s)
    (hs : task n s = some s') : LinesInv s' := by
  unfold task at hs
  split at hs
  · rename_i hn
    split at hs
    · rename_i hpc
      dsimp only at hs
      split at hs
      · cases hs
        exact hL
      · cases hs
        exact lines_move s n 1 true hL (by omega) (by omega) (by omega) (by omega) (by omega)
    · rename_i hpc
      cases hs
      have := lines_move s n 2 s.lock_cout hL (by omega) (by omega) (by omega) (by omega)
        (by omega)
      exact this
    · -- the thread starts writing its line
      rename_i hpc
      cases hs
      obtain ⟨order, cur, hnd, hmem, hout, hc3, hc4, hc0⟩ := hL
      have hhold : holdsLock (s.pc n) := by rw [hpc]; decide
      have hnone : ∀ h, s.pc h ≠ 3 ∧ s.pc h ≠ 4 := by
        intro h
        constructor
        · intro hh
          have := hI.unique h n (by rw [hh]; decide) hhold
          rw [this, hpc] at hh
          cases hh
        · intro hh
          have := hI.unique h n (by rw [hh]; decide) hhold
          rw [this, hpc] at hh
          cases hh
      have hcur := hc0 hnone
      subst hcur
      refine ⟨order, [(n, .str "I'm a task with argument ")], hnd, ?_, ?_, ?_, ?_, ?_⟩
      · intro m
        dsimp only
        by_cases hm : m = n
        · rw [hm, Function.update_same, hmem n, hpc]
          omega
        · rw [Function.update_noteq hm]
          exact hmem m
      · dsimp only
        rw [hout, List.append_nil]
      · intro h hh
        dsimp only at hh
        by_cases hm : h = n
        · rw [hm]
          rfl
        · rw [Function.update_noteq hm] at hh
          exact absurd hh (hnone h).1
      · intro h hh
        dsimp only at hh
        by_cases hm : h = n
        · rw [hm, Function.update_same] at hh
          cases hh
        · rw [Function.update_noteq hm] at hh
          exact absurd hh (hnone h).2
      · intro hall
        have := (hall n).1
        dsimp only at this
        rw [Function.update_same] at this
        exact absurd rfl this
    · -- the thread writes its argument
      rename_i hpc
      cases hs
      obtain ⟨order, cur, hnd, hmem, hout, hc3, hc4, hc0⟩ := hL
      have hhold : holdsLock (s.pc n) := by rw [hpc]; decide
      have hother : ∀ h, h ≠ n → s.pc h ≠ 3 ∧ s.pc h ≠ 4 := by
        intro h hne
        constructor
        · intro hh
          exact hne (hI.unique h n (by rw [hh]; decide) hhold)
        · intro hh
          exact hne (hI.unique h n (by rw [hh]; decide) hhold)
      have hcur := hc3 n hpc
      subst hcur
      refine ⟨order, (line n).take 2, hnd, ?_, ?_, ?_, ?_, ?_⟩
      · intro m
        dsimp only
        by_cases hm : m = n
        · rw [hm, Function.update_same, hmem n, hpc]
          omega
        · rw [Function.update_noteq hm]
          exact hmem m
      · dsimp only
        rw [hout, List.append_assoc]
        rfl
      · intro h hh
        dsimp only at hh
        by_cases hm : h = n
        · rw [hm, Function.update_same] at hh
          cases hh
        · rw [Function.update_noteq hm] at hh
          exact absurd hh (hother h hm).1
      · intro h hh
        dsimp only at hh
        by_cases hm : h = n
        · rw [hm]
        · rw [Function.update_noteq hm] at hh
          exact absurd hh (hother h hm).2
      · intro hall
        have := (hall n).2
        dsimp only at this
        rw [Function.update_same] at this
        exact absurd rfl this
    · -- the thread ends its line
      rename_i hpc
      cases hs
      obtain ⟨order, cur, hnd, hmem, hout, hc3, hc4, hc0⟩ := hL
      have hhold : holdsLock (s.pc n) := by rw [hpc]; decide
      have hother : ∀ h, h ≠ n → s.pc h ≠ 3 ∧ s.pc h ≠ 4 := by
        intro h hne
        constructor
        · intro hh
          exact hne (hI.unique h n (by rw [hh]; decide) hhold)
        · intro hh
          exact hne (hI.unique h n (by rw [hh]; decide) hhold)
      have hcur := hc4 n hpc
      subst hcur
      have hnot : n ∉ order := by
        intro hin
        have := (hmem n).mp hin
        omega
      refine ⟨order ++ [n], [], ?_, ?_, ?_, ?_, ?_, ?_⟩
      · exact List.nodup_append.mpr ⟨hnd, List.nodup_singleton n, by
          intro a ha hb
          rw [List.mem_singleton] at hb
          exact hnot (hb ▸ ha)⟩
      · intro m
        dsimp only
        rw [List.mem_append, List.mem_singleton]
        by_cases hm : m = n
        · rw [hm, Function.update_same]
          simp
        · rw [Function.update_noteq hm, hmem m]
          simp [hm]
      · dsimp only
        rw [hout, List.flatMap_append, List.flatMap_singleton, List.append_nil,
          List.append_assoc]
        rfl
      · intro h hh
        dsimp only at hh
        by_cases hm : h = n
        · rw [hm, Function.update_same] at hh
          cases hh
        · rw [Function.update_noteq hm] at hh
          exact absurd hh (hother h hm).1
      · intro h hh
        dsimp only at hh
        by_cases hm : h = n
        · rw [hm, Function.update_same] at hh
          cases hh
        · rw [Function.update_noteq hm] at hh
          exact absurd hh (hother h hm).2
      · intro _
        rfl
    · rename_i hpc
      cases hs
      exact lines_move s n 6 false hL (by omega) (by omega) (by omega) (by omega) (by omega)
    · cases hs
  · cases hs

theorem spin_lines_step (t : Tid) (s s' : State) (hI : Inv s) (hL : LinesInv s)
    (hs : step t s = some s') : LinesInv s' := by
  cases t with
  | main =>
    simp only [step, main] at hs
    split at hs
    · cases hs; exact hL
    · split at hs
      · split at hs
        · cases hs; exact hL
        · cases hs
      · cases hs
  | task n => exact spin_lines_task n s s' hI hL hs

theorem spin_lines_run (sched : List Tid) (s : State) (hI : Inv s) (hL : LinesInv s) :
    LinesInv (run sched s) := by
  induction sched generalizing s with
  | nil => exact hL
  | cons t ts ih =>
    rw [run]
    split
    · rename_i s' hs
      exact ih s' (spin_inv_step t s s' hI hs) (spin_lines_step t s s' hI hL hs)
    · exact ih s hI hL

theorem spin_lines_started (k : Nat) : LinesInv (startedState k) := by
  refine ⟨[], [], List.nodup_nil, ?_, rfl, ?_, ?_, fun _ => rfl⟩
  · intro n
    simp [startedState]
  · intro h hh
    simp [startedState] at hh
  · intro h hh
    simp [startedState] at hh

end AtomicOperations

namespace AtomicOperations

/-- In a terminal state the flag is clear and the output is the lines of the 11
threads in the order in which they were finished. -/
theorem spin_terminal (s : State) (hI : Inv s) (hL : LinesInv s) (ht : terminal s) :
    ∃ order : List Nat, order.Perm (List.range 11) ∧ s.out = order.flatMap line ∧
      s.out.length = 33 ∧ s.lock_cout = false := by
  obtain ⟨order, cur, hnd, hmem, hout, hc3, hc4, hc0⟩ := hL
  have hpc : ∀ i, s.pc i = 6 ∨ s.pc i = 0 := by
    intro i
    by_cases hi : i < 11
    · exact Or.inl (ht.2 i hi)
    · exact Or.inr (hI.idle i (by rw [ht.1]; omega))
  have hcur : cur = [] := by
    apply hc0
    intro h
    rcases hpc h with h6 | h0 <;> omega
  have hperm : order.Perm (List.range 11) := by
    rw [List.perm_ext_iff_of_nodup hnd (List.nodup_range 11)]
    intro a
    rw [hmem a, List.mem_range]
    constructor
    · intro h5
      by_contra hc
      have := hI.idle a (by rw [ht.1]; omega)
      omega
    · intro ha
      rw [ht.2 a ha]
      omega
  have hout' : s.out = order.flatMap line := by rw [hout, hcur, List.append_nil]
  have hlen : ∀ l : List Nat, (l.flatMap line).length = 3 * l.length := by
    intro l
    induction l with
    | nil => rfl
    | cons a t ih =>
      rw [List.flatMap_cons, List.length_append, ih, List.length_cons]
      simp only [line, List.length_cons, List.length_nil]
      omega
  refine ⟨order, hperm, hout', ?_, ?_⟩
  · rw [hout', hlen, hperm.length_eq, List.length_range]
  · cases hf : s.lock_cout
    · rfl
    · obtain ⟨i, hi⟩ := hI.holder hf
      unfold holdsLock at hi
      rcases hpc i with h6 | h0 <;> omega

/-- C14.  In every terminal state of the spin-lock program, reached from the
entry of `main` under any interleaving, the output is the lines
"I'm a task with argument n" of the threads `n` from 0 to 10, each once and
whole, in some order: 11 lines, 33 insertions; and the flag is clear. -/
theorem C14_terminal_output (sched : List Tid) (ht : terminal (run sched init)) :
    ∃ order : List Nat, order.Perm (List.range 11) ∧
      (run sched init).out = order.flatMap line ∧
      (run sched init).out.length = 33 ∧
      (run sched init).lock_cout = false :=
  spin_terminal _ (spin_inv_run sched init (spin_inv_started 0))
    (spin_lines_run sched init (spin_inv_started 0) (spin_lines_started 0)) ht

/-- C14 for the interleaving in which `main` starts the 11 threads and they
then run one after the other, from `task(0)` to `task(10)`. -/
theorem C14_terminal_output_witness :
    terminal (run (List.replicate 11 .main
        ++ (List.range 11).flatMap (fun n => List.replicate 6 (.task n))) init) ∧
    ∃ order : List Nat, order.Perm (List.range 11) ∧
      (run (List.replicate 11 .main
        ++ (List.range 11).flatMap (fun n => List.replicate 6 (.task n))) init).out
          = order.flatMap line ∧
      (run (List.replicate 11 .main
        ++ (List.range 11).flatMap (fun n => List.replicate 6 (.task n))) init).out.length
          = 33 ∧
      (run (List.replicate 11 .main
        ++ (List.range 11).flatMap (fun n => List.replicate 6 (.task n))) init).lock_cout
          = false :=
  ⟨by decide, C14_terminal_output _ (by decide)⟩

/-- C13.  For every `n` and every interleaving:
* a call `task(n)` and a call `task_m(n)` running alone write the same single
  line, "I'm a task with argument n", and the step with which either returns
  leaves its guard released (flag clear, mutex unlocked);
* the program whose threads run `task_m` is, after any interleaving, in the
  state that corresponds to the state of the program whose threads run `task`
  after the same interleaving: same output, guard held in one when it is held
  in the other;
* so the two programs have the same possible outputs, in all states and in
  terminal states. -/
theorem C13_mutex_same_as_spin (n : Nat) (sched : List Tid) :
    (run (List.replicate 6 (.task n)) (startedState (n + 1))).out = line n ∧
    (runM (List.replicate 6 (.task n)) (startedStateM (n + 1))).out = line n ∧
    (∀ s s', task n s = some s' → s'.pc n = 6 → s'.lock_cout = false) ∧
    (∀ s s', task_m n s = some s' → s'.pc n = 6 → s'.mutex = false) ∧
    (runM sched initM).toSpin = run sched init ∧
    (runM sched initM).out = (run sched init).out ∧
    (runM sched initM).mutex = (run sched init).lock_cout ∧
    (∀ o, (∃ sc, (runM sc initM).out = o) ↔ (∃ sc, (run sc init).out = o)) ∧
    (∀ o, (∃ sc, terminalM (runM sc initM) ∧ (runM sc initM).out = o) ↔
      (∃ sc, terminal (run sc init) ∧ (run sc init).out = o)) := by
  have hsim : ∀ sc, (runM sc initM).toSpin = run sc init := fun sc => runM_toSpin sc initM
  have hout : ∀ sc, (runM sc initM).out = (run sc init).out := fun sc =>
    congrArg State.out (hsim sc)
  have hterm : ∀ sc, terminalM (runM sc initM) ↔ terminal (run sc init) := by
    intro sc
    rw [← hsim sc]
    rfl
  refine ⟨(task_alone n).1, (task_m_alone n).1, task_return_clear n, task_m_return_unlocked n,
    hsim sched, hout sched, congrArg State.lock_cout (hsim sched), ?_, ?_⟩
  · intro o
    constructor
    · rintro ⟨sc, h⟩
      exact ⟨sc, (hout sc) ▸ h⟩
    · rintro ⟨sc, h⟩
      exact ⟨sc, (hout sc).symm ▸ h⟩
  · intro o
    constructor
    · rintro ⟨sc, h1, h2⟩
      exact ⟨sc, (hterm sc).mp h1, (hout sc) ▸ h2⟩
    · rintro ⟨sc, h1, h2⟩
      exact ⟨sc, (hterm sc).mpr h1, (hout sc).symm ▸ h2⟩

end AtomicOperations

namespace AsyncDemo

theorem fib_le_one (n : Int) (h : n ≤ 1) : fib n = some 1 := by
  rw [fib]
  simp [h]

theorem fib_step (n : Int) (h : 1 < n) (x y : Int) (hx : fib (n - 1) = some x)
    (hy : fib (n - 2) = some y) (hxy : inInt (x + y)) : fib n = some (x + y) := by
  rw [fib]
  have : ¬ n ≤ 1 := by omega
  simp [this, hx, hy, hxy]

/-- The values of `fibonacci` up to 45 are within `int`. -/
theorem fibonacci_le (k : Nat) (hk : k ≤ 45) : fibonacci k ≤ 1836311903 := by
  have h : ∀ j, j ≤ 45 → (fibPair j).1 ≤ 1836311903 := by decide
  have := h k hk
  rw [fibPair_eq] at this
  exact this

theorem fibonacci_45 : fibonacci 45 = 1836311903 := by
  have h := fibPair_eq 44
  have h2 : fibPair 44 = (1134903170, 1836311903) := by decide
  rw [h2] at h
  exact (congrArg Prod.snd h).symm

theorem fib_nat (k : Nat) :
    (k ≤ 45 → fib (k : Int) = some ((fibonacci k : Nat) : Int)) ∧
    (k + 1 ≤ 45 → fib ((k + 1 : Nat) : Int) = some ((fibonacci (k + 1) : Nat) : Int)) := by
  induction k with
  | zero =>
    constructor
    · intro _
      rw [fib_le_one _ (by simp), fibonacci_zero]
      rfl
    · intro _
      rw [fib_le_one _ (by simp), fibonacci_one]
      rfl
  | succ j ih =>
    refine ⟨ih.2, ?_⟩
    intro hj
    have h1 := ih.2 (by omega)
    have h0 := ih.1 (by omega)
    have b1 := fibonacci_le (j + 1) (by omega)
    have b0 := fibonacci_le j (by omega)
    have hsum : fibonacci (j + 2) = fibonacci (j + 1) + fibonacci j := by
      rw [fibonacci_add_two]
      apply Nat.mod_eq_of_lt
      omega
    have b2 := fibonacci_le (j + 2) (by omega)
    have e1 : ((j + 1 + 1 : Nat) : Int) - 1 = ((j + 1 : Nat) : Int) := by push_cast; ring
    have e2 : ((j + 1 + 1 : Nat) : Int) - 2 = ((j : Nat) : Int) := by push_cast; ring
    have := fib_step ((j + 1 + 1 : Nat) : Int) (by push_cast; omega) _ _
      (by rw [e1]; exact h1) (by rw [e2]; exact h0)
      (by unfold inInt; omega)
    rw [this, hsum]
    push_cast
    rfl

/-- The function `fibonacci` is the Fibonacci sequence shifted by one, modulo
2^64. -/
theorem fibonacci_eq_fib (m : Nat) :
    fibonacci m = Nat.fib (m + 1) % 18446744073709551616 ∧
    fibonacci (m + 1) = Nat.fib (m + 2) % 18446744073709551616 := by
  induction m with
  | zero =>
    constructor
    · rw [fibonacci_zero]; rfl
    · rw [fibonacci_one]; rfl
  | succ j ih =>
    refine ⟨ih.2, ?_⟩
    rw [fibonacci_add_two, ih.1, ih.2, ← Nat.add_mod]
    congr 1
    rw [Nat.fib_add_two (n := j + 1)]
    ring

/-- C15.  `fibonacci`, a total function, is the Fibonacci sequence `F` with
`F 0 = 0`, `F 1 = 1` shifted by one, modulo 2^64: `fibonacci m = F (m + 1)`
modulo 2^64, so `fibonacci 0 = fibonacci 1 = 1` and
`fibonacci 44 = 1134903170`.  For every `int` `n` with `n ≤ 45`, `fib n`
returns without overflow the value `fibonacci (max n 0)`, which is 1 for
`n ≤ 0`. -/
theorem C15_fibonacci (m : Nat) (n : Int) (hn : inInt n) (h45 : n ≤ 45) :
    fibonacci m = Nat.fib (m + 1) % 2 ^ 64 ∧
    Nat.fib 0 = 0 ∧ Nat.fib 1 = 1 ∧
    fibonacci 0 = 1 ∧ fibonacci 1 = 1 ∧ fibonacci 44 = 1134903170 ∧
    fib n = some ((fibonacci (max n 0).toNat : Nat) : Int) ∧
    (n ≤ 0 → fib n = some 1) := by
  have _ := hn
  refine ⟨(fibonacci_eq_fib m).1, rfl, rfl, fibonacci_zero, fibonacci_one, fibonacci_44, ?_,
    fun h0 => fib_le_one n (by omega)⟩
  by_cases h0 : n ≤ 0
  · have : (max n 0).toNat = 0 := by
      rw [max_eq_right h0]
      rfl
    rw [this, fib_le_one n (by omega), fibonacci_zero]
    rfl
  · have hmax : max n 0 = n := max_eq_left (by omega)
    rw [hmax]
    have hk : n.toNat ≤ 45 := by omega
    have := (fib_nat n.toNat).1 hk
    rw [Int.toNat_of_nonneg (by omega)] at this
    exact this

/-- C15 at the largest argument without overflow: `fib(45)` is 1836311903. -/
theorem C15_fibonacci_witness :
    inInt 45 ∧ (45 : Int) ≤ 45 ∧ fib 45 = some 1836311903 := by
  refine ⟨by decide, by decide, ?_⟩
  have h := (C15_fibonacci 0 45 (by decide) (by decide)).2.2.2.2.2.2.1
  have e : (max (45 : Int) 0).toNat = 45 := by decide
  rw [e, fibonacci_45] at h
  exact h

/-- One more step overflows: `fib(46)` is not defined. -/
theorem fib_46_overflows : fib 46 = none := by
  have h45 : fib 45 = some 1836311903 := by
    have h := (fib_nat 45).1 (by decide)
    rw [fibonacci_45] at h
    exact h
  have h44 : fib 44 = some 1134903170 := by
    have h := (fib_nat 44).1 (by decide)
    rw [fibonacci_44] at h
    exact h
  rw [fib]
  have e1 : (46 : Int) - 1 = 45 := by decide
  have e2 : (46 : Int) - 2 = 44 := by decide
  rw [e1, e2, h45, h44]
  decide

end AsyncDemo

namespace AsyncProgramming

/-- More fuel than the loop needs does not change what it writes. -/
theorem fizzBuzzLoop_fuel (fuel : Nat) (i : Int) (extra : Nat)
    (h : (31 - i).toNat < fuel) : fizzBuzzLoop (fuel + extra) i = fizzBuzzLoop fuel i := by
  induction fuel generalizing i with
  | zero => omega
  | succ f ih =>
    have e : f + 1 + extra = (f + extra) + 1 := by omega
    rw [e, fizzBuzzLoop, fizzBuzzLoop]
    by_cases hi : i ≤ 30
    · rw [if_pos hi, if_pos hi, ih (i + 1) (by omega)]
    · rw [if_neg hi, if_neg hi]

theorem fizzBuzzLoop_32 :
    fizzBuzzLoop 32 0 = (List.range 31).flatMap (fun i => [fizzBuzzSpec i, Item.endl]) := by
  decide

/-- What the main thread has written is always the first items of
`mainItems`. -/
theorem handoff_main_written_step (a b : Int) (t : Tid) (s s' : State)
    (h : written .main s = mainItems.take (s.mpc - 2)) (hs : step a b t s = some s') :
    written .main s' = mainItems.take (s'.mpc - 2) := by
  unfold written at *
  unfold step at hs
  split at hs
  · cases hs
  · cases t
    · simp only [mainStep] at hs
      split at hs
      · rename_i hm
        cases hs
        dsimp only
        have e1 : s.mpc + 1 - 2 = 0 := by omega
        have e2 : s.mpc - 2 = 0 := by omega
        rw [e1]
        rw [e2] at h
        exact h
      · rename_i hm
        split at hs
        · rename_i i hi
          cases hs
          dsimp only
          have e1 : s.mpc + 1 - 2 = s.mpc - 2 + 1 := by omega
          rw [written_emit, h, e1, List.take_succ, hi]
          rfl
        · rename_i hnone
          have hge : mainItems.length ≤ s.mpc - 2 := by
            by_contra hc
            rw [List.getElem?_eq_getElem (by omega)] at hnone
            cases hnone
          have hfull : ∀ k, mainItems.length ≤ k → mainItems.take k = mainItems :=
            fun k hk => List.take_of_length_le hk
          split at hs
          · split at hs
            · cases hs
              dsimp only
              rw [h, hfull _ hge, hfull _ (by omega)]
            · cases hs
          · split at hs
            · split at hs
              · cases hs
                dsimp only
                rw [h, hfull _ hge, hfull _ (by omega)]
              · cases hs
            · cases hs
    · simp only [produce] at hs
      split at hs
      · cases hs
      · split at hs
        · cases hs; exact h
        · split at hs <;> (cases hs; exact h)
        · cases hs
    · simp only [consume] at hs
      split at hs
      · cases hs
      · split at hs
        · split at hs
          · cases hs
          · cases hs; exact h
          · cases hs; exact h
        · cases hs; exact h
        · cases hs
          dsimp only
          rw [written_emit, h]
          simp
        · cases hs
          dsimp only
          rw [written_emit, h]
          simp
        · cases hs
          dsimp only
          rw [written_emit, h]
          simp
        · cases hs

theorem handoff_main_written_run (a b : Int) (sched : List Tid) (s : State)
    (h : written .main s = mainItems.take (s.mpc - 2)) :
    written .main (run a b sched s) = mainItems.take ((run a b sched s).mpc - 2) := by
  induction sched generalizing s with
  | nil => exact h
  | cons t ts ih =>
    rw [run]
    split
    · rename_i s' hs
      exact ih s' (handoff_main_written_step a b t s s' h hs)
    · exact ih s h

/-- C16.  The loop of lines 304 to 317 ends and writes 31 lines, one for each
`i` from 0 to 30 in increasing order, each followed by `std::endl`: the line
the claim describes (`fizzBuzzSpec`), that is "FizzBuzz" exactly when 15
divides `i` (for 0, 15 and 30), "Fizz" exactly when 3 divides `i` and 5 does
not, "Buzz" exactly when 5 divides `i` and 3 does not, and the numeral of `i`
exactly when neither divides it.  In the program, under any interleaving, the
main thread has written the first items of "Main does not stop running"
followed by these lines, and all of them when it has returned. -/
theorem C16_fizzbuzz (extra : Nat) (a b : Int) (sched : List Tid) :
    fizzBuzzLoop (32 + extra) 0
      = (List.range 31).flatMap (fun i => [fizzBuzzSpec i, Item.endl]) ∧
    (fizzBuzzLoop (32 + extra) 0).count Item.endl = 31 ∧
    (fizzBuzzLoop (32 + extra) 0).length = 62 ∧
    (List.range 31).filter (fun i => 15 ∣ i) = [0, 15, 30] ∧
    (∀ i : Nat, i ≤ 30 →
      (fizzBuzzBody i = [.str "FizzBuzz", .endl] ↔ 15 ∣ i) ∧
      (fizzBuzzBody i = [.str "Fizz", .endl] ↔ 3 ∣ i ∧ ¬ 5 ∣ i) ∧
      (fizzBuzzBody i = [.str "Buzz", .endl] ↔ 5 ∣ i ∧ ¬ 3 ∣ i) ∧
      (fizzBuzzBody i = [.int i, .endl] ↔ ¬ 3 ∣ i ∧ ¬ 5 ∣ i)) ∧
    mainItems = [.str "Main does not stop running", .endl]
      ++ (List.range 31).flatMap (fun i => [fizzBuzzSpec i, Item.endl]) ∧
    written .main (run a b sched init)
      = mainItems.take ((run a b sched init).mpc - 2) ∧
    ((run a b sched init).mpc = mainItems.length + 4 →
      written .main (run a b sched init) = mainItems) := by
  have hfuel : fizzBuzzLoop (32 + extra) 0 = fizzBuzzLoop 32 0 :=
    fizzBuzzLoop_fuel 32 0 extra (by decide)
  have hw := handoff_main_written_run a b sched init rfl
  refine ⟨by rw [hfuel]; exact fizzBuzzLoop_32, by rw [hfuel]; decide, by rw [hfuel]; decide,
    by decide, by decide, ?_, hw, ?_⟩
  · unfold mainItems
    rw [fizzBuzzLoop_32]
  · intro hm
    rw [hw, hm]
    exact List.take_of_length_le (by omega)

end AsyncProgramming
